import Mathlib

/-!
# Confidential transaction reconstruction (`x/compute/client/cli/query.go`)

A shallow embedding of the body of `GetQueryDecryptTxCmd` (the `tx [hash]`
query that decrypts the inputs, outputs, logs and error of a committed
transaction) and of `QueryWithData` (the direct query), together with
theorems about them.

Conventions of the embedding:

* a Go `[]byte` and a Go `string` are both a sequence of bytes, `Bytes`;
  `string(b)` and `[]byte(s)` are the identity.  A `nil` slice is the empty
  sequence, except for the one slice the code compares with `nil`
  (`encryptedInput`), which is an `Option Bytes`;
* every call of `wasmCtx.Decrypt` and `wasmCtx.DecryptError` is recorded, in
  program order, in a list of `Call`s that is returned next to the value;
* a Go `return fmt.Errorf(...)` is `Except.error` with the matching `Failure`,
  an index-out-of-range runtime panic is `Failure.IndexOutOfRange`;
* functions that live outside `query.go` (the cipher, the error classifiers,
  the standard-library decoders and the protobuf unmarshallers) are fields of
  the structures `Deps` and `QueryDeps`, so every theorem holds for all of
  them.
-/

namespace SecretNetwork

/-- A Go byte slice or Go string: a sequence of bytes. -/
abbrev Bytes := List Nat

/-- The bytes of an ASCII string literal of the source. -/
def str (s : String) : Bytes := s.data.map Char.toNat

/-- One recorded invocation of the cipher. -/
inductive Call where
  | Decrypt (ciphertext nonce : Bytes)
  | DecryptError (rawLog nonce : Bytes)
deriving DecidableEq, Repr

/-- The ways in which the command body stops without printing a result. -/
inductive Failure where
  /-- The error `can't parse encrypted blob` (the spec's `MalformedEnvelope`). -/
  | MalformedEnvelope
  /-- The error `cannot decrypt, not original tx sender`. -/
  | NotOriginalSender
  /-- The error `error while trying to decrypt the tx input`. -/
  | DecryptionFailed
  /-- The error `error while trying to decode the encrypted output data from hex string`. -/
  | HexDecode
  /-- The error `error while trying to parse data as protobuf`. -/
  | ProtoDecode
  /-- Go runtime panic: index out of range. -/
  | IndexOutOfRange
deriving DecidableEq, Repr

deriving instance DecidableEq for Except

/-- An entry of `TxMsgData.MsgResponses` (a protobuf `Any`). -/
structure Any where
  TypeUrl : Bytes
  Value : Bytes
deriving DecidableEq, Repr

/-- The collaborators of the command body that are defined outside `query.go`. -/
structure Deps where
  /-- The call `wasmCtx.Decrypt(ciphertext, nonce)`; `none` is a returned error. -/
  Decrypt : Bytes → Bytes → Option Bytes
  /-- The call `wasmCtx.DecryptError(rawLog, nonce)`; `none` is a returned error. -/
  DecryptError : Bytes → Bytes → Option Bytes
  /-- The test `types.IsEncryptedErrorCode(code)`. -/
  IsEncryptedErrorCode : Nat → Bool
  /-- The test `types.ContainsEncryptedString(rawLog)`. -/
  ContainsEncryptedString : Bytes → Bool
  /-- The test `types.ContainsEnclaveError(rawLog)`. -/
  ContainsEnclaveError : Bytes → Bool
  /-- The decoder `base64.StdEncoding.DecodeString`; `none` is a returned error. -/
  Base64Decode : Bytes → Option Bytes
  /-- The decoder `hex.DecodeString`; `none` is a returned error. -/
  HexDecode : Bytes → Option Bytes
  /-- The call of `proto.Unmarshal` into `sdk.TxMsgData`, giving its `MsgResponses`. -/
  UnmarshalTxMsgData : Bytes → Option (List Any)
  /-- The call of `proto.Unmarshal` into `MsgInstantiateContractResponse`, giving its `Data`. -/
  UnmarshalInstantiateResponse : Bytes → Option Bytes
  /-- The call of `proto.Unmarshal` into `MsgExecuteContractResponse`, giving its `Data`. -/
  UnmarshalExecuteResponse : Bytes → Option Bytes

/-- A message of the transaction, with the one field the command reads.
`none` is a `nil` field. -/
inductive Msg where
  | MsgExecuteContract (Msg : Option Bytes)
  | MsgInstantiateContract (InitMsg : Option Bytes)
  | Other
deriving DecidableEq, Repr

/-- The record `types.DecryptedAnswer`; `&types.DecryptedAnswer{}` is all empty. -/
structure DecryptedAnswer where
  Typ : Bytes
  Input : Bytes
  OutputData : Bytes
  OutputDataAsString : Bytes
deriving DecidableEq, Repr

/-- An attribute of an event: `Key` and `Value` strings. -/
structure EventAttribute where
  Key : Bytes
  Value : Bytes
deriving DecidableEq, Repr

/-- An event of the transaction result (and, after `sdk.StringifyEvent`,
an entry of `OutputLogs`, which keeps the type and every key and value). -/
structure Event where
  Typ : Bytes
  Attributes : List EventAttribute
deriving DecidableEq, Repr

/-- The parts of the queried transaction that the command reads:
`result.GetTx().GetMsgs()`, `result.Data`, `result.Events`, `result.Code`
and `result.RawLog`. -/
structure TxResponse where
  Msgs : List Msg
  Data : Bytes
  Events : List Event
  Code : Nat
  RawLog : Bytes
deriving DecidableEq, Repr

/-- The record `types.DecryptedAnswers` that the command prints. -/
structure DecryptedAnswers where
  Answers : List DecryptedAnswer
  OutputLogs : List Event
  OutputError : Bytes
  PlaintextError : Bytes
deriving DecidableEq, Repr

/-- Modelled from the spec: `parseEncryptedBlob`, which `query.go` calls but
does not define. The blob is nonce (32 bytes), sender public key (32 bytes)
and ciphertext (the rest); decoding fails when the blob is shorter than 64
bytes. The result is `(nonce, sender public key, ciphertext)`. -/
def parseEncryptedBlob (blob : Bytes) : Option (Bytes × Bytes × Bytes) :=
  if blob.length < 64 then none
  else some (blob.take 32, (blob.drop 32).take 32, blob.drop 64)

/-! ## Message inputs (lines 355-393) -/

/-- The `switch txInput := tx.(type)`: the value given to `encryptedInput`. -/
def encryptedInput : Msg → Option Bytes
  | .MsgExecuteContract m => m
  | .MsgInstantiateContract m => m
  | .Other => none

/-- The `switch txInput := tx.(type)`: the value given to `answers.Answers[i].Type`. -/
def answerType : Msg → Bytes
  | .MsgExecuteContract _ => str "execute"
  | .MsgInstantiateContract _ => str "instantiate"
  | .Other => []

/-- One iteration of the loop over `txInputs`: the cipher calls made, and
either the failure returned or the answer and the nonce stored at this index. -/
def decryptInput (env : Deps) (myPubkey : Bytes) (tx : Msg) :
    List Call × Except Failure (DecryptedAnswer × Bytes) :=
  let answer : DecryptedAnswer :=
    { Typ := answerType tx, Input := [], OutputData := [], OutputDataAsString := [] }
  match encryptedInput tx with
  | none => ([], .ok (answer, []))
  | some blob =>
    match parseEncryptedBlob blob with
    | none => ([], .error .MalformedEnvelope)
    | some (nonce, originalTxSenderPubkey, ciphertextInput) =>
      if originalTxSenderPubkey ≠ myPubkey then ([], .error .NotOriginalSender)
      else if ciphertextInput.length > 0 then
        match env.Decrypt ciphertextInput nonce with
        | none => ([.Decrypt ciphertextInput nonce], .error .DecryptionFailed)
        | some plaintextInput =>
          ([.Decrypt ciphertextInput nonce], .ok ({ answer with Input := plaintextInput }, nonce))
      else ([], .ok (answer, nonce))

/-- The loop over `txInputs`: it fills `answers.Answers` and `nonces` index by
index and stops at the first failure. -/
def decryptInputs (env : Deps) (myPubkey : Bytes) :
    List Msg → List Call × Except Failure (List DecryptedAnswer × List Bytes)
  | [] => ([], .ok ([], []))
  | tx :: rest =>
    match decryptInput env myPubkey tx with
    | (t, .error e) => (t, .error e)
    | (t, .ok (answer, nonce)) =>
      match decryptInputs env myPubkey rest with
      | (t', .error e) => (t ++ t', .error e)
      | (t', .ok (answers, nonces)) => (t ++ t', .ok (answer :: answers, nonce :: nonces))

/-! ## Output data (lines 395-447) -/

/-- The type URL of an instantiate response. -/
def instantiateResponseUrl : Bytes := str "/secret.compute.v1beta1.MsgInstantiateContractResponse"

/-- The type URL of an execute response. -/
def executeResponseUrl : Bytes := str "/secret.compute.v1beta1.MsgExecuteContractResponse"

/-- The `switch` over `msgData.TypeUrl`: `none` is a `continue`, `some` the `dataField`. -/
def responseDataField (env : Deps) (msgData : Any) : Option Bytes :=
  if msgData.TypeUrl = instantiateResponseUrl then env.UnmarshalInstantiateResponse msgData.Value
  else if msgData.TypeUrl = executeResponseUrl then env.UnmarshalExecuteResponse msgData.Value
  else none

/-- One iteration of the loop over `txData.MsgResponses`, at index `i`. -/
def decryptOutputEntry (env : Deps) (nonces : List Bytes) (answers : List DecryptedAnswer)
    (i : Nat) (msgData : Any) : List Call × Except Failure (List DecryptedAnswer) :=
  if msgData.Value.length ≠ 0 then
    match responseDataField env msgData with
    | none => ([], .ok answers)
    | some dataField =>
      match nonces[i]? with
      | none => ([], .error .IndexOutOfRange)
      | some nonce =>
        match env.Decrypt dataField nonce with
        | none => ([.Decrypt dataField nonce], .ok answers)
        | some dataPlaintextB64 =>
          match answers[i]? with
          | none => ([.Decrypt dataField nonce], .error .IndexOutOfRange)
          | some answer =>
            match env.Base64Decode dataPlaintextB64 with
            | none =>
              ([.Decrypt dataField nonce],
                .ok (answers.set i { answer with OutputData := dataPlaintextB64 }))
            | some dataPlaintext =>
              ([.Decrypt dataField nonce],
                .ok (answers.set i { answer with OutputData := dataPlaintextB64,
                                                 OutputDataAsString := dataPlaintext }))
  else ([], .ok answers)

/-- The loop over `txData.MsgResponses`, from index `i` on. -/
def decryptOutputs (env : Deps) (nonces : List Bytes) :
    Nat → List Any → List DecryptedAnswer → List Call × Except Failure (List DecryptedAnswer)
  | _, [], answers => ([], .ok answers)
  | i, msgData :: rest, answers =>
    match decryptOutputEntry env nonces answers i msgData with
    | (t, .error e) => (t, .error e)
    | (t, .ok answers') =>
      ((t ++ (decryptOutputs env nonces (i + 1) rest answers').1),
        (decryptOutputs env nonces (i + 1) rest answers').2)

/-- The block guarded by `dataOutputHexB64 != ""`. -/
def decryptData (env : Deps) (nonces : List Bytes) (answers : List DecryptedAnswer)
    (dataOutputHexB64 : Bytes) : List Call × Except Failure (List DecryptedAnswer) :=
  if dataOutputHexB64 ≠ [] then
    match env.HexDecode dataOutputHexB64 with
    | none => ([], .error .HexDecode)
    | some dataOutputAsProtobuf =>
      match env.UnmarshalTxMsgData dataOutputAsProtobuf with
      | none => ([], .error .ProtoDecode)
      | some msgResponses => decryptOutputs env nonces 0 msgResponses answers
  else ([], .ok answers)

/-! ## Logs (lines 449-494) -/

/-- The loop `for _, nonce := range nonces` around `wasmCtx.Decrypt`: the calls
made and the plaintext of the first success, if any. -/
def nonceSearch (env : Deps) (ciphertext : Bytes) : List Bytes → List Call × Option Bytes
  | [] => ([], none)
  | nonce :: rest =>
    match env.Decrypt ciphertext nonce with
    | some plaintext => ([.Decrypt ciphertext nonce], some plaintext)
    | none =>
      (.Decrypt ciphertext nonce :: (nonceSearch env ciphertext rest).1,
        (nonceSearch env ciphertext rest).2)

/-- The body of the loop over `e.Attributes`: the calls made and the value of
`e.Attributes[i]` afterwards. The local copy `a` is written back only when the
statement `e.Attributes[i] = a` is reached. -/
def decryptAttribute (env : Deps) (nonces : List Bytes) (a : EventAttribute) :
    List Call × EventAttribute :=
  if a.Key ≠ str "contract_address" then
    -- key: `none` is the `continue` taken when the key is not base64
    let afterKey : Option (List Call × Bytes) :=
      if a.Key ≠ [] then
        match env.Base64Decode a.Key with
        | none => none
        | some keyCiphertext =>
          some ((nonceSearch env keyCiphertext nonces).1,
                ((nonceSearch env keyCiphertext nonces).2).getD a.Key)
      else some ([], a.Key)
    match afterKey with
    | none => ([], a)
    | some (t, key) =>
      -- value
      if a.Value ≠ [] then
        match env.Base64Decode a.Value with
        | none => (t, a)
        | some valueCiphertext =>
          (t ++ (nonceSearch env valueCiphertext nonces).1,
            { Key := key, Value := ((nonceSearch env valueCiphertext nonces).2).getD a.Value })
      else (t, { Key := key, Value := a.Value })
  else ([], a)

/-- The loop over `e.Attributes`. -/
def decryptAttributes (env : Deps) (nonces : List Bytes) :
    List EventAttribute → List Call × List EventAttribute
  | [] => ([], [])
  | a :: rest =>
    ((decryptAttribute env nonces a).1 ++ (decryptAttributes env nonces rest).1,
      (decryptAttribute env nonces a).2 :: (decryptAttributes env nonces rest).2)

/-- The loop over `result.Events`: the calls made and `answers.OutputLogs`. -/
def decryptLogs (env : Deps) (nonces : List Bytes) : List Event → List Call × List Event
  | [] => ([], [])
  | e :: rest =>
    if e.Typ = str "wasm" then
      ((decryptAttributes env nonces e.Attributes).1 ++ (decryptLogs env nonces rest).1,
        { Typ := e.Typ, Attributes := (decryptAttributes env nonces e.Attributes).2 }
          :: (decryptLogs env nonces rest).2)
    else decryptLogs env nonces rest

/-! ## Error (lines 496-507) -/

/-- The text `fmt.Sprintf("message index %d: ", i)`. -/
def messageIndexText (i : Nat) : Bytes :=
  str "message index " ++ (Nat.toDigits 10 i).map Char.toNat ++ str ": "

/-- The loop `for i, nonce := range nonces` around `wasmCtx.DecryptError`, from
index `i` on: the calls made and the value given to `OutputError`, if any. -/
def errorSearch (env : Deps) (rawLog : Bytes) : Nat → List Bytes → List Call × Option Bytes
  | _, [] => ([], none)
  | i, nonce :: rest =>
    match env.DecryptError rawLog nonce with
    | some stdErr => ([.DecryptError rawLog nonce], some (messageIndexText i ++ stdErr))
    | none =>
      (.DecryptError rawLog nonce :: (errorSearch env rawLog (i + 1) rest).1,
        (errorSearch env rawLog (i + 1) rest).2)

/-- The final `if ... else if ...`: the calls made and the pair
`(OutputError, PlaintextError)`. -/
def decryptError (env : Deps) (nonces : List Bytes) (code : Nat) (rawLog : Bytes) :
    List Call × Bytes × Bytes :=
  if env.IsEncryptedErrorCode code && env.ContainsEncryptedString rawLog then
    ((errorSearch env rawLog 0 nonces).1, ((errorSearch env rawLog 0 nonces).2).getD [], [])
  else if env.ContainsEnclaveError rawLog then ([], [], rawLog)
  else ([], [], [])

/-! ## The command body (lines 347-507) -/

/-- The body of `GetQueryDecryptTxCmd` from the creation of `answers` to the
value that is marshalled and printed, for the caller public key `myPubkey`. -/
def reconstruct (env : Deps) (myPubkey : Bytes) (result : TxResponse) :
    List Call × Except Failure DecryptedAnswers :=
  match decryptInputs env myPubkey result.Msgs with
  | (t1, .error e) => (t1, .error e)
  | (t1, .ok (answers, nonces)) =>
    match decryptData env nonces answers result.Data with
    | (t2, .error e) => (t1 ++ t2, .error e)
    | (t2, .ok answers') =>
      (t1 ++ t2 ++ (decryptLogs env nonces result.Events).1
          ++ (decryptError env nonces result.Code result.RawLog).1,
        .ok { Answers := answers'
              OutputLogs := (decryptLogs env nonces result.Events).2
              OutputError := (decryptError env nonces result.Code result.RawLog).2.1
              PlaintextError := (decryptError env nonces result.Code result.RawLog).2.2 })

/-! ## Concrete collaborators, for evaluating the definitions -/

/-- The value of a character of the standard base64 alphabet. -/
def base64Digit (c : Nat) : Option Nat :=
  if 65 ≤ c ∧ c ≤ 90 then some (c - 65)
  else if 97 ≤ c ∧ c ≤ 122 then some (c - 71)
  else if 48 ≤ c ∧ c ≤ 57 then some (c + 4)
  else if c = 43 then some 62
  else if c = 47 then some 63
  else none

/-- Decoding of a base64 text without line breaks, four characters at a time;
only the last group may end in one or two padding characters `=` (byte 61). -/
def base64Quanta : List Nat → Option Bytes
  | [] => some []
  | a :: b :: c :: d :: rest =>
    match base64Digit a, base64Digit b with
    | some x, some y =>
      if rest = [] ∧ c = 61 ∧ d = 61 then some [x * 4 + y / 16]
      else
        match base64Digit c with
        | some z =>
          if rest = [] ∧ d = 61 then some [x * 4 + y / 16, y % 16 * 16 + z / 4]
          else
            match base64Digit d, base64Quanta rest with
            | some w, some out =>
              some ((x * 4 + y / 16) :: (y % 16 * 16 + z / 4) :: (z % 4 * 64 + w) :: out)
            | _, _ => none
        | none => none
    | _, _ => none
  | _ => none

/-- A model of Go's `base64.StdEncoding.DecodeString`: carriage returns and
line feeds are skipped, the rest is padded standard base64. -/
def stdBase64Decode (s : Bytes) : Option Bytes :=
  base64Quanta (s.filter fun c => c ≠ 10 ∧ c ≠ 13)

/-- The value of a hexadecimal digit. -/
def hexDigit (c : Nat) : Option Nat :=
  if 48 ≤ c ∧ c ≤ 57 then some (c - 48)
  else if 97 ≤ c ∧ c ≤ 102 then some (c - 87)
  else if 65 ≤ c ∧ c ≤ 70 then some (c - 55)
  else none

/-- A model of Go's `hex.DecodeString`. -/
def hexDecodeString : List Nat → Option Bytes
  | [] => some []
  | a :: b :: rest =>
    match hexDigit a, hexDigit b, hexDecodeString rest with
    | some x, some y, some out => some ((x * 16 + y) :: out)
    | _, _, _ => none
  | _ => none

/-- A stand-in cipher: a ciphertext is the first byte of its nonce followed by
the plaintext, so decryption succeeds exactly under a nonce that starts with
the first byte of the ciphertext. -/
def demoDecrypt (ciphertext nonce : Bytes) : Option Bytes :=
  match ciphertext, nonce with
  | c :: plaintext, n :: _ => if c = n then some plaintext else none
  | _, _ => none

/-- Whether `pat` occurs in `s` as a contiguous run of bytes. -/
def containsBytes (pat s : Bytes) : Bool :=
  s.tails.any fun t => pat.isPrefixOf t

/-- A stand-in for the protobuf wire form of `TxMsgData`: two bytes per
response entry, a tag and a payload byte. Tag 1 is an instantiate response,
tag 2 an execute response, any other tag a response of an unknown type; the
payload byte 0 is the empty `Value`, any other byte `b` the `Value` `[b]`.
A trailing single byte does not decode. -/
def demoUnmarshalTxMsgData : Bytes → Option (List Any)
  | [] => some []
  | tag :: b :: rest =>
    match demoUnmarshalTxMsgData rest with
    | some entries =>
      some ({ TypeUrl := if tag = 1 then instantiateResponseUrl
                         else if tag = 2 then executeResponseUrl
                         else str "/cosmos.bank.v1beta1.MsgSendResponse",
              Value := if b = 0 then [] else [b] } :: entries)
    | none => none
  | _ => none

/-- Concrete collaborators: the stand-in cipher for both `Decrypt` and
`DecryptError`, status code 3 as the encrypted-failure code, the markers
`encrypted:` and `EnclaveErr`, the standard decoders, and response payloads
whose `Data` is the payload itself. -/
def demoDeps : Deps where
  Decrypt := demoDecrypt
  DecryptError := demoDecrypt
  IsEncryptedErrorCode := fun code => code == 3
  ContainsEncryptedString := containsBytes (str "encrypted:")
  ContainsEnclaveError := containsBytes (str "EnclaveErr")
  Base64Decode := stdBase64Decode
  HexDecode := hexDecodeString
  UnmarshalTxMsgData := demoUnmarshalTxMsgData
  UnmarshalInstantiateResponse := fun v => some v
  UnmarshalExecuteResponse := fun v => some v

/-! ## Predicates used to state the properties -/

/-- The message carries an encrypted payload that decodes and whose embedded
sender public key differs from `myPubkey`. -/
def foreignSender (myPubkey : Bytes) (tx : Msg) : Bool :=
  match encryptedInput tx with
  | none => false
  | some blob =>
    match parseEncryptedBlob blob with
    | none => false
    | some (_, sender, _) => decide (sender ≠ myPubkey)

/-- The message is processed without error: it has no encrypted field, or its
field decodes, carries `myPubkey`, and its ciphertext is empty or decrypts. -/
def inputOk (env : Deps) (myPubkey : Bytes) (tx : Msg) : Bool :=
  match encryptedInput tx with
  | none => true
  | some blob =>
    match parseEncryptedBlob blob with
    | none => false
    | some (nonce, sender, ciphertext) =>
      decide (sender = myPubkey) &&
        (decide (ciphertext = []) || (env.Decrypt ciphertext nonce).isSome)

/-- The cipher call that belongs to a message: `Decrypt` on its ciphertext and
its nonce when the field decodes and the ciphertext is not empty. -/
def inputCall (tx : Msg) : List Call :=
  match encryptedInput tx with
  | none => []
  | some blob =>
    match parseEncryptedBlob blob with
    | none => []
    | some (nonce, _, ciphertext) =>
      if ciphertext = [] then [] else [.Decrypt ciphertext nonce]

/-- The cipher calls that belong to a list of messages, in message order. -/
def inputCalls : List Msg → List Call
  | [] => []
  | tx :: rest => inputCall tx ++ inputCalls rest

/-- A 32-byte key or nonce made of one repeated byte. -/
def fill (b : Nat) : Bytes := List.replicate 32 b

/-- An encrypted blob under the stand-in cipher: nonce `fill n`, sender public
key `fill s`, and the ciphertext of `plaintext` under that nonce. -/
def demoBlob (n s : Nat) (plaintext : Bytes) : Bytes :=
  fill n ++ fill s ++ n :: plaintext

/-! ## The direct query (`QueryWithData`, lines 885-946) -/

/-- A Go `error` value returned by a collaborator, identified by its text. -/
abbrev GoError := Bytes

/-- The error that `QueryWithData` returns. -/
inductive QueryError where
  /-- The error `sdkerrors.ErrNotFound.Wrapf("Contract with address %s not found", ...)`. -/
  | NotFound (contractAddress : Bytes)
  /-- The statement `return err`: an error of a collaborator, returned as it is. -/
  | Returned (err : GoError)
  /-- The error `fmt.Errorf("query result: %s", text)`. -/
  | QueryResult (text : Bytes)
deriving DecidableEq, Repr

/-- The collaborators of `QueryWithData` that are defined outside `query.go`;
a returned Go error is `Except.error` with that error. -/
structure QueryDeps where
  /-- The lookup `GetCodeHashByContractAddr(clientCtx, address)`. -/
  GetCodeHashByContractAddr : Bytes → Except GoError Bytes
  /-- The bytes `types.SecretMsg{CodeHash, Msg}.Serialize()`. -/
  Serialize : Bytes → Bytes → Bytes
  /-- The call `wasmCtx.Encrypt(plaintext)`. -/
  Encrypt : Bytes → Except GoError Bytes
  /-- The call `queryClient.QuerySecretContract` with the address and the
  encrypted query, giving `res.Data`. -/
  QuerySecretContract : Bytes → Bytes → Except GoError Bytes
  /-- The test `types.ErrContainsQueryError(err)`. -/
  ErrContainsQueryError : GoError → Bool
  /-- The call `wasmCtx.DecryptError(err.Error(), nonce)`. -/
  DecryptError : Bytes → Bytes → Except GoError Bytes
  /-- The text `stdErr.Error()` after `json.Unmarshal(errorPlainBz, &stdErr)`;
  `none` is an error of `json.Unmarshal`. -/
  StdErrorText : Bytes → Option Bytes
  /-- The call `wasmCtx.Decrypt(ciphertext, nonce)`. -/
  Decrypt : Bytes → Bytes → Except GoError Bytes
  /-- The decoder `base64.StdEncoding.DecodeString`. -/
  Base64Decode : Bytes → Except GoError Bytes

/-- The statement `nonce, _, _, _ := parseEncryptedBlob(queryData)`: the error
is ignored, and a failed decode leaves the nonce `nil`. -/
def requestNonce (queryData : Bytes) : Bytes :=
  match parseEncryptedBlob queryData with
  | some (nonce, _, _) => nonce
  | none => []

/-- The function `QueryWithData`: the returned error, or the text given to
`fmt.Println` when it returns `nil`. -/
def QueryWithData (env : QueryDeps) (contractAddress queryData : Bytes) :
    Except QueryError Bytes :=
  match env.GetCodeHashByContractAddr contractAddress with
  | .error _ => .error (.NotFound contractAddress)
  | .ok codeHash =>
    match env.Encrypt (env.Serialize codeHash queryData) with
    | .error err => .error (.Returned err)
    | .ok encrypted =>
      match env.QuerySecretContract contractAddress encrypted with
      | .error err =>
        if env.ErrContainsQueryError err then
          -- `errorPlainBz, err := ...` declares a new `err` inside the block
          match env.DecryptError err (requestNonce encrypted) with
          | .error decryptErr => .error (.Returned decryptErr)
          | .ok errorPlainBz =>
            match env.StdErrorText errorPlainBz with
            | none => .error (.QueryResult errorPlainBz)
            | some text => .error (.QueryResult text)
        else .error (.Returned err)
      | .ok data =>
        match env.Decrypt data (requestNonce encrypted) with
        | .error err => .error (.Returned err)
        | .ok resDecrypted =>
          match env.Base64Decode resDecrypted with
          | .error err => .error (.Returned err)
          | .ok decodedResp => .ok decodedResp

/-- Concrete collaborators of the direct query, for a given answer of the
query service: code hash `abcd`, serialization by concatenation, encryption
under nonce `fill 1` by the sender `fill 7` with the stand-in cipher, every
error that holds `encrypted:` recognized as a query error, and error texts of
the decoders of their own. -/
def demoQueryDeps (response : Except GoError Bytes) : QueryDeps where
  GetCodeHashByContractAddr := fun _ => .ok (str "abcd")
  Serialize := fun codeHash msg => codeHash ++ msg
  Encrypt := fun plaintext => .ok (demoBlob 1 7 plaintext)
  QuerySecretContract := fun _ _ => response
  ErrContainsQueryError := containsBytes (str "encrypted:")
  DecryptError := fun text nonce =>
    match demoDecrypt text nonce with
    | some plaintext => .ok plaintext
    | none => .error (str "got an error decrypting the error")
  StdErrorText := fun _ => none
  Decrypt := fun ciphertext nonce =>
    match demoDecrypt ciphertext nonce with
    | some plaintext => .ok plaintext
    | none => .error (str "failed to decrypt")
  Base64Decode := fun s =>
    match stdBase64Decode s with
    | some out => .ok out
    | none => .error (str "illegal base64 data")

/-- The collaborators `demoDeps`, except that the `Data` of a response is its
payload followed by `rest`, so that a response can carry a longer ciphertext. -/
def demoDepsWithData (rest : Bytes) : Deps :=
  { demoDeps with
    UnmarshalInstantiateResponse := fun v => some (v ++ rest)
    UnmarshalExecuteResponse := fun v => some (v ++ rest) }

/-! ## Lemmas on the input loop -/

theorem decryptInput_of_foreignSender (env : Deps) (myPubkey : Bytes) (tx : Msg)
    (h : foreignSender myPubkey tx = true) :
    decryptInput env myPubkey tx = ([], .error .NotOriginalSender) := by
  unfold foreignSender at h
  unfold decryptInput
  cases hb : encryptedInput tx with
  | none => simp [hb] at h
  | some blob =>
    cases hp : parseEncryptedBlob blob with
    | none => simp [hb, hp] at h
    | some t =>
      obtain ⟨nonce, sender, ct⟩ := t
      have hne : sender ≠ myPubkey := by simpa [hb, hp] using h
      simp [hp, hne]

theorem decryptInput_of_inputOk (env : Deps) (myPubkey : Bytes) (tx : Msg)
    (h : inputOk env myPubkey tx = true) :
    ∃ r, decryptInput env myPubkey tx = (inputCall tx, .ok r) := by
  unfold inputOk at h
  unfold decryptInput inputCall
  cases hb : encryptedInput tx with
  | none => exact ⟨_, rfl⟩
  | some blob =>
    cases hp : parseEncryptedBlob blob with
    | none => simp [hb, hp] at h
    | some t =>
      obtain ⟨nonce, sender, ct⟩ := t
      simp only [hb, hp, Bool.and_eq_true, Bool.or_eq_true, decide_eq_true_eq] at h
      obtain ⟨hs, hc⟩ := h
      by_cases hct : ct = []
      · subst hct
        simp [hp, hs]
      · have hd : (env.Decrypt ct nonce).isSome = true := by
          cases hc with
          | inl h0 => exact absurd h0 hct
          | inr h1 => exact h1
        obtain ⟨pt, hpt⟩ := Option.isSome_iff_exists.mp hd
        have hlen : 0 < ct.length := List.length_pos.mpr hct
        simp [hp, hs, hct, hpt, hlen]

theorem decryptInput_error_cases (env : Deps) (myPubkey : Bytes) (tx : Msg) (t : List Call)
    (e : Failure) (h : decryptInput env myPubkey tx = (t, .error e)) :
    e = .MalformedEnvelope ∨ e = .NotOriginalSender ∨ e = .DecryptionFailed := by
  unfold decryptInput at h
  cases hb : encryptedInput tx with
  | none => simp [hb] at h
  | some blob =>
    cases hp : parseEncryptedBlob blob with
    | none =>
      simp [hb, hp] at h
      exact Or.inl h.2.symm
    | some p =>
      obtain ⟨nonce, sender, ct⟩ := p
      simp only [hb, hp] at h
      split at h
      · simp at h
        exact Or.inr (Or.inl h.2.symm)
      · split at h
        · cases hd : env.Decrypt ct nonce with
          | none =>
            simp [hd] at h
            exact Or.inr (Or.inr h.2.symm)
          | some pt => simp [hd] at h
        · simp at h

theorem decryptInputs_stops (env : Deps) (myPubkey : Bytes) (pre : List Msg) (tx : Msg)
    (post : List Msg) (t : List Call) (e : Failure)
    (hpre : ∀ m ∈ pre, inputOk env myPubkey m = true)
    (htx : decryptInput env myPubkey tx = (t, .error e)) :
    decryptInputs env myPubkey (pre ++ tx :: post) = (inputCalls pre ++ t, .error e) := by
  induction pre with
  | nil => simp [decryptInputs, inputCalls, htx]
  | cons m pre ih =>
    obtain ⟨r, hr⟩ := decryptInput_of_inputOk env myPubkey m (hpre m (List.mem_cons_self _ _))
    have ih2 := ih (fun x hx => hpre x (List.mem_cons_of_mem _ hx))
    obtain ⟨a, n⟩ := r
    simp [decryptInputs, inputCalls, hr, ih2]

theorem decryptInputs_cons_error (env : Deps) (myPubkey : Bytes) (tx : Msg) (rest : List Msg)
    (e : Failure) (h : (decryptInput env myPubkey tx).2 = .error e) :
    (decryptInputs env myPubkey (tx :: rest)).2 = .error e := by
  rcases hd : decryptInput env myPubkey tx with ⟨t, o⟩
  rw [hd] at h
  simp only at h
  subst h
  simp [decryptInputs, hd]

theorem decryptInputs_cons_ok (env : Deps) (myPubkey : Bytes) (tx : Msg) (rest : List Msg)
    (p : DecryptedAnswer × Bytes) (e : Failure)
    (h : (decryptInput env myPubkey tx).2 = .ok p)
    (hrest : (decryptInputs env myPubkey rest).2 = .error e) :
    (decryptInputs env myPubkey (tx :: rest)).2 = .error e := by
  rcases hd : decryptInput env myPubkey tx with ⟨t, o⟩
  rcases hr : decryptInputs env myPubkey rest with ⟨t', o'⟩
  rw [hd] at h
  rw [hr] at hrest
  simp only at h hrest
  subst h
  subst hrest
  obtain ⟨a, n⟩ := p
  simp [decryptInputs, hd, hr]

theorem list_split_at {α : Type} (l : List α) (k : Nat) (x : α) (h : l[k]? = some x) :
    l = l.take k ++ x :: l.drop (k + 1) := by
  induction l generalizing k with
  | nil => simp at h
  | cons a l ih =>
    cases k with
    | zero =>
      simp at h
      simp [h]
    | succ k =>
      simp at h
      simpa using ih k h

theorem reconstruct_of_inputs_error (env : Deps) (myPubkey : Bytes) (result : TxResponse)
    (t : List Call) (e : Failure)
    (h : decryptInputs env myPubkey result.Msgs = (t, .error e)) :
    reconstruct env myPubkey result = (t, .error e) := by
  simp [reconstruct, h]

theorem decryptInputs_first_failure (env : Deps) (myPubkey : Bytes) (msgs : List Msg) (k : Nat)
    (tx : Msg) (hk : msgs[k]? = some tx) (hf : foreignSender myPubkey tx = true) :
    ∃ e, (decryptInputs env myPubkey msgs).2 = .error e ∧
      (e = .NotOriginalSender ∨
        ∃ m ∈ msgs.take k, (decryptInput env myPubkey m).2 = .error e ∧
          (e = .MalformedEnvelope ∨ e = .DecryptionFailed)) := by
  induction msgs generalizing k with
  | nil => simp at hk
  | cons m rest ih =>
    cases k with
    | zero =>
      simp at hk
      subst hk
      refine ⟨.NotOriginalSender, ?_, Or.inl rfl⟩
      apply decryptInputs_cons_error
      rw [decryptInput_of_foreignSender env myPubkey m hf]
    | succ k =>
      simp at hk
      rcases hd : decryptInput env myPubkey m with ⟨t, o⟩
      cases o with
      | error e =>
        refine ⟨e, ?_, ?_⟩
        · apply decryptInputs_cons_error
          rw [hd]
        · rcases decryptInput_error_cases env myPubkey m t e hd with h1 | h2 | h3
          · exact Or.inr ⟨m, by simp, by rw [hd], Or.inl h1⟩
          · exact Or.inl h2
          · exact Or.inr ⟨m, by simp, by rw [hd], Or.inr h3⟩
      | ok p =>
        obtain ⟨e, he, hcase⟩ := ih k hk
        refine ⟨e, ?_, ?_⟩
        · exact decryptInputs_cons_ok env myPubkey m rest p e (by rw [hd]) he
        · rcases hcase with h1 | ⟨m', hm', hm'e, hkind⟩
          · exact Or.inl h1
          · exact Or.inr ⟨m', by simp [hm'], hm'e, hkind⟩

theorem inputCall_length_le (tx : Msg) : (inputCall tx).length ≤ 1 := by
  unfold inputCall
  cases encryptedInput tx with
  | none => simp
  | some blob =>
    cases hp : parseEncryptedBlob blob with
    | none => simp [hp]
    | some p =>
      obtain ⟨nonce, sender, ct⟩ := p
      by_cases h : ct = [] <;> simp [hp, h]

theorem inputCalls_length_le (msgs : List Msg) : (inputCalls msgs).length ≤ msgs.length := by
  induction msgs with
  | nil => simp [inputCalls]
  | cons m rest ih =>
    have := inputCall_length_le m
    simp [inputCalls]
    omega

/-! ## Lemmas on the nonce searches -/

theorem nonceSearch_first_success (env : Deps) (ciphertext : Bytes) (nonces : List Bytes)
    (i : Nat) (nonce plaintext : Bytes) (hi : nonces[i]? = some nonce)
    (hd : env.Decrypt ciphertext nonce = some plaintext)
    (hfirst : ∀ m ∈ nonces.take i, env.Decrypt ciphertext m = none) :
    nonceSearch env ciphertext nonces
      = ((nonces.take (i + 1)).map (Call.Decrypt ciphertext), some plaintext) := by
  induction nonces generalizing i with
  | nil => simp at hi
  | cons n rest ih =>
    cases i with
    | zero =>
      simp at hi
      subst hi
      simp [nonceSearch, hd]
    | succ i =>
      simp at hi
      have hn : env.Decrypt ciphertext n = none := hfirst n (by simp)
      have hrest := ih i hi (fun m hm => hfirst m (by simp [hm]))
      simp [nonceSearch, hn, hrest]

theorem nonceSearch_no_success (env : Deps) (ciphertext : Bytes) (nonces : List Bytes)
    (hnone : ∀ m ∈ nonces, env.Decrypt ciphertext m = none) :
    nonceSearch env ciphertext nonces = (nonces.map (Call.Decrypt ciphertext), none) := by
  induction nonces with
  | nil => simp [nonceSearch]
  | cons n rest ih =>
    have hn : env.Decrypt ciphertext n = none := hnone n (by simp)
    have hrest := ih (fun m hm => hnone m (by simp [hm]))
    simp [nonceSearch, hn, hrest]

theorem errorSearch_first_success (env : Deps) (rawLog : Bytes) (nonces : List Bytes)
    (j i : Nat) (nonce stdErr : Bytes) (hi : nonces[i]? = some nonce)
    (hd : env.DecryptError rawLog nonce = some stdErr)
    (hfirst : ∀ m ∈ nonces.take i, env.DecryptError rawLog m = none) :
    errorSearch env rawLog j nonces
      = ((nonces.take (i + 1)).map (Call.DecryptError rawLog),
          some (messageIndexText (j + i) ++ stdErr)) := by
  induction nonces generalizing i j with
  | nil => simp at hi
  | cons n rest ih =>
    cases i with
    | zero =>
      simp at hi
      subst hi
      simp [errorSearch, hd]
    | succ i =>
      simp at hi
      have hn : env.DecryptError rawLog n = none := hfirst n (by simp)
      have hrest := ih (j + 1) i hi (fun m hm => hfirst m (by simp [hm]))
      have hidx : j + 1 + i = j + (i + 1) := by omega
      simp [errorSearch, hn, hrest, hidx]

theorem errorSearch_no_success (env : Deps) (rawLog : Bytes) (nonces : List Bytes) (j : Nat)
    (hnone : ∀ m ∈ nonces, env.DecryptError rawLog m = none) :
    errorSearch env rawLog j nonces = (nonces.map (Call.DecryptError rawLog), none) := by
  induction nonces generalizing j with
  | nil => simp [errorSearch]
  | cons n rest ih =>
    have hn : env.DecryptError rawLog n = none := hnone n (by simp)
    have hrest := ih (j + 1) (fun m hm => hnone m (by simp [hm]))
    simp [errorSearch, hn, hrest]

/-! ## Lemmas on the log loop and on the command body -/

theorem decryptAttributes_length (env : Deps) (nonces : List Bytes) (l : List EventAttribute) :
    ((decryptAttributes env nonces l).2).length = l.length := by
  induction l with
  | nil => simp [decryptAttributes]
  | cons a rest ih => simp [decryptAttributes, ih]

theorem decryptLogs_wasm_only (env : Deps) (nonces : List Bytes) (events : List Event) :
    List.Forall₂ (fun out e => out.Typ = e.Typ ∧ out.Attributes.length = e.Attributes.length)
      (decryptLogs env nonces events).2
      (events.filter fun e => decide (e.Typ = str "wasm")) := by
  induction events with
  | nil => simp [decryptLogs]
  | cons e rest ih =>
    by_cases h : e.Typ = str "wasm"
    · simp only [decryptLogs, h, if_true, decide_True, List.filter_cons_of_pos]
      exact List.Forall₂.cons ⟨h.symm ▸ rfl, decryptAttributes_length env nonces e.Attributes⟩ ih
    · simpa [decryptLogs, h] using ih

theorem reconstruct_ok_parts (env : Deps) (myPubkey : Bytes) (result : TxResponse)
    (res : DecryptedAnswers) (h : (reconstruct env myPubkey result).2 = .ok res) :
    ∃ answers nonces,
      (decryptInputs env myPubkey result.Msgs).2 = .ok (answers, nonces) ∧
      (decryptData env nonces answers result.Data).2 = .ok res.Answers ∧
      res.OutputLogs = (decryptLogs env nonces result.Events).2 ∧
      res.OutputError = (decryptError env nonces result.Code result.RawLog).2.1 ∧
      res.PlaintextError = (decryptError env nonces result.Code result.RawLog).2.2 := by
  unfold reconstruct at h
  rcases hin : decryptInputs env myPubkey result.Msgs with ⟨t1, o1⟩
  rw [hin] at h
  cases o1 with
  | error e => simp at h
  | ok p =>
    obtain ⟨answers, nonces⟩ := p
    simp only at h
    rcases hout : decryptData env nonces answers result.Data with ⟨t2, o2⟩
    rw [hout] at h
    cases o2 with
    | error e => simp at h
    | ok answers' =>
      simp only [Except.ok.injEq] at h
      subst h
      exact ⟨answers, nonces, rfl, by rw [hout], rfl, rfl, rfl⟩

theorem reconstruct_of_phases_ok (env : Deps) (myPubkey : Bytes) (result : TxResponse)
    (answers answers' : List DecryptedAnswer) (nonces : List Bytes)
    (hin : (decryptInputs env myPubkey result.Msgs).2 = .ok (answers, nonces))
    (hout : (decryptData env nonces answers result.Data).2 = .ok answers') :
    (reconstruct env myPubkey result).2
      = .ok { Answers := answers'
              OutputLogs := (decryptLogs env nonces result.Events).2
              OutputError := (decryptError env nonces result.Code result.RawLog).2.1
              PlaintextError := (decryptError env nonces result.Code result.RawLog).2.2 } := by
  unfold reconstruct
  rcases hi : decryptInputs env myPubkey result.Msgs with ⟨t1, o1⟩
  rw [hi] at hin
  simp only at hin
  subst hin
  simp only
  rcases ho : decryptData env nonces answers result.Data with ⟨t2, o2⟩
  rw [ho] at hout
  simp only at hout
  subst hout
  rfl

/-! ## Lemmas on the output loop -/

theorem decryptInputs_lengths (env : Deps) (myPubkey : Bytes) (msgs : List Msg)
    (answers : List DecryptedAnswer) (nonces : List Bytes)
    (h : (decryptInputs env myPubkey msgs).2 = .ok (answers, nonces)) :
    answers.length = msgs.length ∧ nonces.length = msgs.length := by
  induction msgs generalizing answers nonces with
  | nil =>
    simp [decryptInputs] at h
    simp [h.1, h.2]
  | cons m rest ih =>
    unfold decryptInputs at h
    rcases hd : decryptInput env myPubkey m with ⟨t, o⟩
    rw [hd] at h
    cases o with
    | error e => simp at h
    | ok p =>
      obtain ⟨a, n⟩ := p
      simp only at h
      rcases hr : decryptInputs env myPubkey rest with ⟨t', o'⟩
      rw [hr] at h
      cases o' with
      | error e => simp at h
      | ok q =>
        obtain ⟨as, ns⟩ := q
        simp only [Except.ok.injEq, Prod.mk.injEq] at h
        have hrec := ih as ns (by rw [hr])
        rw [← h.1, ← h.2]
        simp [hrec.1, hrec.2]

theorem decryptOutputEntry_in_range (env : Deps) (nonces : List Bytes)
    (answers : List DecryptedAnswer) (i : Nat) (msgData : Any)
    (hi : i < nonces.length) (hlen : answers.length = nonces.length) :
    ∃ answers', (decryptOutputEntry env nonces answers i msgData).2 = .ok answers' ∧
      answers'.length = answers.length := by
  unfold decryptOutputEntry
  by_cases hv : msgData.Value.length = 0
  · simp [hv]
  · cases hf : responseDataField env msgData with
    | none => simp [hv]
    | some dataField =>
      have hn : nonces[i]? = some nonces[i] := List.getElem?_eq_getElem hi
      have hi' : i < answers.length := by omega
      have ha : answers[i]? = some answers[i] := List.getElem?_eq_getElem hi'
      cases hd : env.Decrypt dataField nonces[i] with
      | none => simp [hv, hn, hd]
      | some pt =>
        cases hb : env.Base64Decode pt with
        | none => simp [hv, hn, hd, ha, hb]
        | some out => simp [hv, hn, hd, ha, hb]

theorem decryptOutputs_in_range (env : Deps) (nonces : List Bytes) (i : Nat)
    (entries : List Any) (answers : List DecryptedAnswer)
    (hi : i + entries.length ≤ nonces.length) (hlen : answers.length = nonces.length) :
    ∃ answers', (decryptOutputs env nonces i entries answers).2 = .ok answers' ∧
      answers'.length = answers.length := by
  induction entries generalizing i answers with
  | nil => simp [decryptOutputs]
  | cons m rest ih =>
    have hlt : i < nonces.length := by
      simp at hi
      omega
    obtain ⟨a1, h1, hl1⟩ := decryptOutputEntry_in_range env nonces answers i m hlt hlen
    obtain ⟨a2, h2, hl2⟩ := ih (i + 1) a1 (by simp at hi; omega) (by omega)
    refine ⟨a2, ?_, by omega⟩
    unfold decryptOutputs
    rcases he : decryptOutputEntry env nonces answers i m with ⟨t, o⟩
    rw [he] at h1
    simp only at h1
    subst h1
    simpa using h2

/-- When the input phase succeeds and the output container decodes into no
more response entries than the transaction has messages, no response entry
makes the command fail, and there is one answer per message. -/
theorem reconstruct_ok_of_entries_in_range (env : Deps) (myPubkey : Bytes)
    (result : TxResponse) (answers : List DecryptedAnswer) (nonces : List Bytes)
    (bz : Bytes) (entries : List Any)
    (hin : (decryptInputs env myPubkey result.Msgs).2 = .ok (answers, nonces))
    (hhex : env.HexDecode result.Data = some bz)
    (hproto : env.UnmarshalTxMsgData bz = some entries)
    (hcount : entries.length ≤ result.Msgs.length) :
    ∃ res, (reconstruct env myPubkey result).2 = .ok res ∧
      res.Answers.length = result.Msgs.length := by
  obtain ⟨hla, hln⟩ := decryptInputs_lengths env myPubkey result.Msgs answers nonces hin
  obtain ⟨a', ha', hl'⟩ := decryptOutputs_in_range env nonces 0 entries answers
    (by omega) (by omega)
  by_cases hd : result.Data = []
  · have hdata : (decryptData env nonces answers result.Data).2 = .ok answers := by
      simp [decryptData, hd]
    exact ⟨_, reconstruct_of_phases_ok env myPubkey result answers answers nonces hin hdata,
      by simp; omega⟩
  · have hdata : (decryptData env nonces answers result.Data).2 = .ok a' := by
      simp [decryptData, hd, hhex, hproto, ha']
    exact ⟨_, reconstruct_of_phases_ok env myPubkey result answers a' nonces hin hdata,
      by simp; omega⟩

/-! ## Lemmas on the answers -/

theorem decryptInput_answer (env : Deps) (myPubkey : Bytes) (tx : Msg) (t : List Call)
    (a : DecryptedAnswer) (n : Bytes) (h : decryptInput env myPubkey tx = (t, .ok (a, n))) :
    a.Typ = answerType tx ∧ a.OutputData = [] ∧ a.OutputDataAsString = [] ∧
      (encryptedInput tx = none → a.Input = [] ∧ n = []) := by
  unfold decryptInput at h
  cases hb : encryptedInput tx with
  | none =>
    simp only [hb, Prod.mk.injEq, Except.ok.injEq] at h
    obtain ⟨-, ha, hn⟩ := h
    subst ha
    subst hn
    simp
  | some blob =>
    cases hp : parseEncryptedBlob blob with
    | none => simp [hb, hp] at h
    | some p =>
      obtain ⟨nonce, sender, ct⟩ := p
      simp only [hb, hp] at h
      split at h
      · simp at h
      · split at h
        · cases hd : env.Decrypt ct nonce with
          | none => simp [hd] at h
          | some pt =>
            simp only [hd, Prod.mk.injEq, Except.ok.injEq] at h
            obtain ⟨-, ha, -⟩ := h
            subst ha
            simp
        · simp only [Prod.mk.injEq, Except.ok.injEq] at h
          obtain ⟨-, ha, -⟩ := h
          subst ha
          simp

theorem decryptInputs_getElem (env : Deps) (myPubkey : Bytes) (msgs : List Msg)
    (answers : List DecryptedAnswer) (nonces : List Bytes) (k : Nat) (tx : Msg)
    (h : (decryptInputs env myPubkey msgs).2 = .ok (answers, nonces))
    (hk : msgs[k]? = some tx) :
    ∃ t a n, decryptInput env myPubkey tx = (t, .ok (a, n)) ∧
      answers[k]? = some a ∧ nonces[k]? = some n := by
  induction msgs generalizing answers nonces k with
  | nil => simp at hk
  | cons m rest ih =>
    unfold decryptInputs at h
    rcases hd : decryptInput env myPubkey m with ⟨t, o⟩
    rw [hd] at h
    cases o with
    | error e => simp at h
    | ok p =>
      obtain ⟨a, n⟩ := p
      simp only at h
      rcases hr : decryptInputs env myPubkey rest with ⟨t', o'⟩
      rw [hr] at h
      cases o' with
      | error e => simp at h
      | ok q =>
        obtain ⟨as, ns⟩ := q
        simp only [Except.ok.injEq, Prod.mk.injEq] at h
        obtain ⟨h1, h2⟩ := h
        subst h1
        subst h2
        cases k with
        | zero =>
          simp at hk
          subst hk
          exact ⟨t, a, n, hd, by simp, by simp⟩
        | succ k =>
          simp at hk
          obtain ⟨t2, a2, n2, hd2, ha2, hn2⟩ := ih as ns k (by rw [hr]) hk
          exact ⟨t2, a2, n2, hd2, by simpa using ha2, by simpa using hn2⟩

theorem decryptOutputEntry_hit (env : Deps) (nonces : List Bytes)
    (answers : List DecryptedAnswer) (j : Nat) (msgData : Any) (dataField nonce plaintext : Bytes)
    (a : DecryptedAnswer) (hv : msgData.Value ≠ [])
    (hf : responseDataField env msgData = some dataField) (hn : nonces[j]? = some nonce)
    (hd : env.Decrypt dataField nonce = some plaintext) (ha : answers[j]? = some a) :
    decryptOutputEntry env nonces answers j msgData
      = ([.Decrypt dataField nonce],
          .ok (answers.set j
            { a with OutputData := plaintext,
                     OutputDataAsString :=
                       (env.Base64Decode plaintext).getD a.OutputDataAsString })) := by
  have hlen : msgData.Value.length ≠ 0 := by
    intro h0
    exact hv (List.length_eq_zero.mp h0)
  unfold decryptOutputEntry
  cases hb : env.Base64Decode plaintext with
  | none => simp [hlen, hf, hn, hd, ha, hb]
  | some out => simp [hlen, hf, hn, hd, ha, hb]

theorem decryptOutputEntry_ok_cases (env : Deps) (nonces : List Bytes)
    (answers answers' : List DecryptedAnswer) (j : Nat) (msgData : Any)
    (h : (decryptOutputEntry env nonces answers j msgData).2 = .ok answers') :
    answers' = answers ∨
      ∃ a b : DecryptedAnswer, answers[j]? = some a ∧ answers' = answers.set j b ∧
        b.Typ = a.Typ ∧ b.Input = a.Input := by
  unfold decryptOutputEntry at h
  by_cases hv : msgData.Value.length = 0
  · simp [hv] at h
    exact Or.inl h.symm
  · cases hf : responseDataField env msgData with
    | none =>
      simp [hv, hf] at h
      exact Or.inl h.symm
    | some d =>
      cases hn : nonces[j]? with
      | none => simp [hv, hf, hn] at h
      | some nonce =>
        cases hd : env.Decrypt d nonce with
        | none =>
          simp [hv, hf, hn, hd] at h
          exact Or.inl h.symm
        | some pt =>
          cases ha : answers[j]? with
          | none => simp [hv, hf, hn, hd, ha] at h
          | some a =>
            cases hb : env.Base64Decode pt with
            | none =>
              simp [hv, hf, hn, hd, ha, hb] at h
              exact Or.inr ⟨a, _, rfl, h.symm, rfl, rfl⟩
            | some out =>
              simp [hv, hf, hn, hd, ha, hb] at h
              exact Or.inr ⟨a, _, rfl, h.symm, rfl, rfl⟩

theorem decryptOutputEntry_getElem_ne (env : Deps) (nonces : List Bytes)
    (answers answers' : List DecryptedAnswer) (j i : Nat) (msgData : Any)
    (h : (decryptOutputEntry env nonces answers j msgData).2 = .ok answers') (hne : j ≠ i) :
    answers'[i]? = answers[i]? := by
  rcases decryptOutputEntry_ok_cases env nonces answers answers' j msgData h with h1 | h2
  · rw [h1]
  · obtain ⟨a, b, -, hset, -, -⟩ := h2
    rw [hset, List.getElem?_set_ne hne]

theorem decryptOutputEntry_keeps_input (env : Deps) (nonces : List Bytes)
    (answers answers' : List DecryptedAnswer) (j i : Nat) (msgData : Any) (a : DecryptedAnswer)
    (h : (decryptOutputEntry env nonces answers j msgData).2 = .ok answers')
    (ha : answers[i]? = some a) :
    ∃ a', answers'[i]? = some a' ∧ a'.Typ = a.Typ ∧ a'.Input = a.Input := by
  rcases decryptOutputEntry_ok_cases env nonces answers answers' j msgData h with h1 | h2
  · rw [h1]
    exact ⟨a, ha, rfl, rfl⟩
  · obtain ⟨a0, b, ha0, hset, hty, hin⟩ := h2
    by_cases hji : j = i
    · subst hji
      rw [ha] at ha0
      cases ha0
      have hlt : j < answers.length := by
        rcases Nat.lt_or_ge j answers.length with hl | hl
        · exact hl
        · rw [List.getElem?_eq_none hl] at ha
          cases ha
      exact ⟨b, by rw [hset, List.getElem?_set_self hlt], hty, hin⟩
    · exact ⟨a, by rw [hset, List.getElem?_set_ne hji, ha], rfl, rfl⟩

theorem decryptOutputs_cons_ok (env : Deps) (nonces : List Bytes) (j : Nat) (msgData : Any)
    (rest : List Any) (answers answers' : List DecryptedAnswer)
    (h : (decryptOutputs env nonces j (msgData :: rest) answers).2 = .ok answers') :
    ∃ mid, (decryptOutputEntry env nonces answers j msgData).2 = .ok mid ∧
      (decryptOutputs env nonces (j + 1) rest mid).2 = .ok answers' := by
  unfold decryptOutputs at h
  rcases he : decryptOutputEntry env nonces answers j msgData with ⟨t, o⟩
  rw [he] at h
  cases o with
  | error e => simp at h
  | ok mid => exact ⟨mid, rfl, by simpa using h⟩

theorem decryptOutputs_getElem_lt (env : Deps) (nonces : List Bytes) (j i : Nat)
    (entries : List Any) (answers answers' : List DecryptedAnswer)
    (h : (decryptOutputs env nonces j entries answers).2 = .ok answers') (hlt : i < j) :
    answers'[i]? = answers[i]? := by
  induction entries generalizing j answers with
  | nil =>
    simp [decryptOutputs] at h
    rw [h]
  | cons m rest ih =>
    obtain ⟨mid, h1, h2⟩ := decryptOutputs_cons_ok env nonces j m rest answers answers' h
    rw [ih (j + 1) mid h2 (by omega)]
    exact decryptOutputEntry_getElem_ne env nonces answers mid j i m h1 (by omega)

theorem decryptOutputs_keeps_input (env : Deps) (nonces : List Bytes) (j i : Nat)
    (entries : List Any) (answers answers' : List DecryptedAnswer) (a : DecryptedAnswer)
    (h : (decryptOutputs env nonces j entries answers).2 = .ok answers')
    (ha : answers[i]? = some a) :
    ∃ a', answers'[i]? = some a' ∧ a'.Typ = a.Typ ∧ a'.Input = a.Input := by
  induction entries generalizing j answers a with
  | nil =>
    simp [decryptOutputs] at h
    rw [← h]
    exact ⟨a, ha, rfl, rfl⟩
  | cons m rest ih =>
    obtain ⟨mid, h1, h2⟩ := decryptOutputs_cons_ok env nonces j m rest answers answers' h
    obtain ⟨a1, ha1, hty1, hin1⟩ :=
      decryptOutputEntry_keeps_input env nonces answers mid j i m a h1 ha
    obtain ⟨a2, ha2, hty2, hin2⟩ := ih (j + 1) mid a1 h2 ha1
    exact ⟨a2, ha2, by rw [hty2, hty1], by rw [hin2, hin1]⟩

theorem decryptOutputs_entry (env : Deps) (nonces : List Bytes) (j k : Nat)
    (entries : List Any) (answers answers' : List DecryptedAnswer) (msgData : Any)
    (dataField nonce plaintext : Bytes) (a : DecryptedAnswer)
    (h : (decryptOutputs env nonces j entries answers).2 = .ok answers')
    (hk : entries[k]? = some msgData) (hv : msgData.Value ≠ [])
    (hf : responseDataField env msgData = some dataField)
    (hn : nonces[j + k]? = some nonce)
    (hd : env.Decrypt dataField nonce = some plaintext)
    (ha : answers[j + k]? = some a) :
    answers'[j + k]? = some
      { a with OutputData := plaintext,
               OutputDataAsString := (env.Base64Decode plaintext).getD a.OutputDataAsString } := by
  induction entries generalizing j k answers with
  | nil => simp at hk
  | cons m rest ih =>
    obtain ⟨mid, h1, h2⟩ := decryptOutputs_cons_ok env nonces j m rest answers answers' h
    cases k with
    | zero =>
      simp at hk
      subst hk
      simp only [Nat.add_zero] at hn ha ⊢
      rw [decryptOutputEntry_hit env nonces answers j m dataField nonce plaintext a hv hf hn hd ha]
        at h1
      simp only [Except.ok.injEq] at h1
      rw [decryptOutputs_getElem_lt env nonces (j + 1) j rest mid answers' h2 (by omega), ← h1]
      have hlt : j < answers.length := by
        rcases Nat.lt_or_ge j answers.length with hl | hl
        · exact hl
        · rw [List.getElem?_eq_none hl] at ha
          cases ha
      rw [List.getElem?_set_self hlt]
    | succ k =>
      simp at hk
      have hidx : j + (k + 1) = j + 1 + k := by omega
      rw [hidx] at hn ha ⊢
      have hmid : mid[j + 1 + k]? = some a := by
        rw [decryptOutputEntry_getElem_ne env nonces answers mid j (j + 1 + k) m h1 (by omega)]
        exact ha
      exact ih (j + 1) k mid h2 hk hn hmid

theorem decryptOutputs_cons_error (env : Deps) (nonces : List Bytes) (j : Nat) (msgData : Any)
    (rest : List Any) (answers : List DecryptedAnswer) (e : Failure)
    (h : (decryptOutputEntry env nonces answers j msgData).2 = .error e) :
    (decryptOutputs env nonces j (msgData :: rest) answers).2 = .error e := by
  unfold decryptOutputs
  rcases he : decryptOutputEntry env nonces answers j msgData with ⟨t, o⟩
  rw [he] at h
  simp only at h
  subst h
  rfl

theorem decryptOutputs_cons_of_ok (env : Deps) (nonces : List Bytes) (j : Nat) (msgData : Any)
    (rest : List Any) (answers mid : List DecryptedAnswer)
    (h : (decryptOutputEntry env nonces answers j msgData).2 = .ok mid) :
    (decryptOutputs env nonces j (msgData :: rest) answers).2
      = (decryptOutputs env nonces (j + 1) rest mid).2 := by
  rcases he : decryptOutputEntry env nonces answers j msgData with ⟨t, o⟩
  rw [he] at h
  simp only at h
  subst h
  simp [decryptOutputs, he]

theorem decryptOutputEntry_error_kind (env : Deps) (nonces : List Bytes)
    (answers : List DecryptedAnswer) (j : Nat) (msgData : Any) (e : Failure)
    (h : (decryptOutputEntry env nonces answers j msgData).2 = .error e) :
    e = .IndexOutOfRange := by
  unfold decryptOutputEntry at h
  by_cases hv : msgData.Value.length = 0
  · simp [hv] at h
  · cases hf : responseDataField env msgData with
    | none => simp [hv, hf] at h
    | some d =>
      cases hn : nonces[j]? with
      | none =>
        simp [hv, hf, hn] at h
        exact h.symm
      | some nonce =>
        cases hd : env.Decrypt d nonce with
        | none => simp [hv, hf, hn, hd] at h
        | some pt =>
          cases ha : answers[j]? with
          | none =>
            simp [hv, hf, hn, hd, ha] at h
            exact h.symm
          | some a =>
            cases hb : env.Base64Decode pt with
            | none => simp [hv, hf, hn, hd, ha, hb] at h
            | some out => simp [hv, hf, hn, hd, ha, hb] at h

theorem decryptOutputs_panics (env : Deps) (nonces : List Bytes) (j k : Nat)
    (entries : List Any) (answers : List DecryptedAnswer) (msgData : Any) (dataField : Bytes)
    (hk : entries[k]? = some msgData) (hv : msgData.Value ≠ [])
    (hf : responseDataField env msgData = some dataField)
    (hrange : nonces.length ≤ j + k) :
    (decryptOutputs env nonces j entries answers).2 = .error .IndexOutOfRange := by
  induction entries generalizing j k answers with
  | nil => simp at hk
  | cons m rest ih =>
    cases ho : (decryptOutputEntry env nonces answers j m).2 with
    | error e =>
      rw [decryptOutputs_cons_error env nonces j m rest answers e ho,
        decryptOutputEntry_error_kind env nonces answers j m e ho]
    | ok mid =>
      rw [decryptOutputs_cons_of_ok env nonces j m rest answers mid ho]
      cases k with
      | zero =>
        simp at hk
        subst hk
        have hlen : m.Value.length ≠ 0 := fun h0 => hv (List.length_eq_zero.mp h0)
        have hn : nonces[j]? = none := List.getElem?_eq_none (by omega)
        simp [decryptOutputEntry, hlen, hf, hn] at ho
      | succ k =>
        simp at hk
        exact ih (j + 1) k mid hk (by omega)

/-- When the input phase succeeds and the output container decodes, a response
entry with a non-empty payload of a recognized type that decodes, at an index
that is not below the number of messages, makes the command end in an
index-out-of-range panic. -/
theorem reconstruct_panics_of_entry_beyond_messages (env : Deps) (myPubkey : Bytes)
    (result : TxResponse) (answers : List DecryptedAnswer) (nonces : List Bytes)
    (bz : Bytes) (entries : List Any) (i : Nat) (msgData : Any) (dataField : Bytes)
    (hin : (decryptInputs env myPubkey result.Msgs).2 = .ok (answers, nonces))
    (hdata : result.Data ≠ [])
    (hhex : env.HexDecode result.Data = some bz)
    (hproto : env.UnmarshalTxMsgData bz = some entries)
    (hi : entries[i]? = some msgData) (hv : msgData.Value ≠ [])
    (hf : responseDataField env msgData = some dataField)
    (hrange : result.Msgs.length ≤ i) :
    (reconstruct env myPubkey result).2 = .error .IndexOutOfRange := by
  obtain ⟨-, hln⟩ := decryptInputs_lengths env myPubkey result.Msgs answers nonces hin
  have hloop := decryptOutputs_panics env nonces 0 i entries answers msgData dataField hi hv hf
    (by omega)
  have hout : (decryptData env nonces answers result.Data).2 = .error .IndexOutOfRange := by
    simp [decryptData, hdata, hhex, hproto, hloop]
  unfold reconstruct
  rcases hi2 : decryptInputs env myPubkey result.Msgs with ⟨t1, o1⟩
  rw [hi2] at hin
  simp only at hin
  subst hin
  simp only
  rcases ho : decryptData env nonces answers result.Data with ⟨t2, o2⟩
  rw [ho] at hout
  simp only at hout
  subst hout
  rfl

theorem decryptAttributes_snd (env : Deps) (nonces : List Bytes) (l : List EventAttribute) :
    (decryptAttributes env nonces l).2 = l.map fun a => (decryptAttribute env nonces a).2 := by
  induction l with
  | nil => simp [decryptAttributes]
  | cons a rest ih => simp [decryptAttributes, ih]

theorem decryptLogs_snd (env : Deps) (nonces : List Bytes) (events : List Event) :
    (decryptLogs env nonces events).2
      = (events.filter fun e => decide (e.Typ = str "wasm")).map fun e =>
          { Typ := e.Typ
            Attributes := e.Attributes.map fun a => (decryptAttribute env nonces a).2 } := by
  induction events with
  | nil => simp [decryptLogs]
  | cons e rest ih =>
    by_cases h : e.Typ = str "wasm"
    · simp [decryptLogs, h, ih, decryptAttributes_snd]
    · simp [decryptLogs, h, ih]

/-- The decrypted log collection of a result: the wasm events of the
transaction, in order, each attribute being what the body of the attribute
loop leaves for it under the ledger of the input phase. -/
theorem reconstruct_output_logs (env : Deps) (myPubkey : Bytes) (result : TxResponse)
    (res : DecryptedAnswers) (answers : List DecryptedAnswer) (nonces : List Bytes)
    (h : (reconstruct env myPubkey result).2 = .ok res)
    (hin : (decryptInputs env myPubkey result.Msgs).2 = .ok (answers, nonces)) :
    res.OutputLogs
      = (result.Events.filter fun e => decide (e.Typ = str "wasm")).map fun e =>
          { Typ := e.Typ
            Attributes := e.Attributes.map fun a => (decryptAttribute env nonces a).2 } := by
  obtain ⟨answers0, nonces0, hin0, -, hlogs, -, -⟩ :=
    reconstruct_ok_parts env myPubkey result res h
  rw [hin] at hin0
  simp only [Except.ok.injEq, Prod.mk.injEq] at hin0
  rw [hlogs, ← hin0.2]
  exact decryptLogs_snd env nonces result.Events

/-- First match wins where the search is reached. When a log string `s` is
base64 for `ciphertext`, `Decrypt` succeeds under the nonce at index `i` with
`plaintext` and fails under every nonce before index `i`, the search makes
exactly the calls for the nonces at indices `0..i`, in that order, and none
after, and yields `plaintext`; an attribute key `s` and an attribute value `s`
are replaced by `plaintext` when the other field of the attribute is empty or
base64 too. -/
theorem nonce_search_first_match_wins (env : Deps) (nonces : List Bytes) (s ciphertext : Bytes)
    (i : Nat) (nonce plaintext : Bytes)
    (hs : env.Base64Decode s = some ciphertext) (hne : s ≠ [])
    (hi : nonces[i]? = some nonce)
    (hd : env.Decrypt ciphertext nonce = some plaintext)
    (hfirst : ∀ m ∈ nonces.take i, env.Decrypt ciphertext m = none) :
    nonceSearch env ciphertext nonces
        = ((nonces.take (i + 1)).map (Call.Decrypt ciphertext), some plaintext) ∧
      (∀ value : Bytes, s ≠ str "contract_address" →
        value = [] ∨ (env.Base64Decode value).isSome = true →
        (decryptAttribute env nonces { Key := s, Value := value }).2.Key = plaintext) ∧
      (∀ key : Bytes, key ≠ str "contract_address" →
        key = [] ∨ (env.Base64Decode key).isSome = true →
        (decryptAttribute env nonces { Key := key, Value := s }).2.Value = plaintext) := by
  have hsearch := nonceSearch_first_success env ciphertext nonces i nonce plaintext hi hd hfirst
  refine ⟨hsearch, ?_, ?_⟩
  · intro value hca hvalue
    by_cases hv : value = []
    · simp [decryptAttribute, hca, hne, hs, hsearch, hv]
    · obtain ⟨vc, hvc⟩ := Option.isSome_iff_exists.mp (hvalue.resolve_left hv)
      simp [decryptAttribute, hca, hne, hs, hsearch, hv, hvc]
  · intro key hca hkey
    by_cases hk : key = []
    · subst hk
      simp [decryptAttribute, hca, hne, hs, hsearch]
    · obtain ⟨kc, hkc⟩ := Option.isSome_iff_exists.mp (hkey.resolve_left hk)
      simp [decryptAttribute, hca, hne, hs, hsearch, hk, hkc]

/-- An instance of the search: the ledger `[fill 1, fill 2, fill 3]` and the log
string `A29r`, base64 for a ciphertext that decrypts only under `fill 3`, to
`ok`: the attempts are `fill 1`, `fill 2`, `fill 3`, in that order. -/
theorem nonce_search_first_match_wins_witness :
    nonceSearch demoDeps [3, 111, 107] [fill 1, fill 2, fill 3]
        = ([.Decrypt [3, 111, 107] (fill 1), .Decrypt [3, 111, 107] (fill 2),
            .Decrypt [3, 111, 107] (fill 3)], some (str "ok")) ∧
      (decryptAttribute demoDeps [fill 1, fill 2, fill 3]
          { Key := str "A29r", Value := [] }).2.Key = str "ok" ∧
      (decryptAttribute demoDeps [fill 1, fill 2, fill 3]
          { Key := [], Value := str "A29r" }).2.Value = str "ok" :=
  have h := nonce_search_first_match_wins demoDeps [fill 1, fill 2, fill 3] (str "A29r")
    [3, 111, 107] 2 (fill 3) (str "ok") (by decide) (by decide) (by decide) (by decide)
    (by decide)
  ⟨h.1, h.2.1 [] (by decide) (Or.inl rfl), h.2.2 [] (by decide) (Or.inl rfl)⟩

/-! ## Claims -/

/-- C1 (amended). When some message carries an encrypted payload whose embedded
sender public key differs from the caller's, reconstruction returns no result:
it stops with a failure, which is `NotOriginalSender` unless an earlier message
already stopped it with `MalformedEnvelope` or a failed input decryption. -/
theorem foreign_sender_aborts (env : Deps) (myPubkey : Bytes) (result : TxResponse) (k : Nat)
    (tx : Msg) (hk : result.Msgs[k]? = some tx) (hf : foreignSender myPubkey tx = true) :
    ∃ e, (reconstruct env myPubkey result).2 = .error e ∧
      (e = .NotOriginalSender ∨
        ∃ m ∈ result.Msgs.take k, (decryptInput env myPubkey m).2 = .error e ∧
          (e = .MalformedEnvelope ∨ e = .DecryptionFailed)) := by
  obtain ⟨e, he, hcase⟩ := decryptInputs_first_failure env myPubkey result.Msgs k tx hk hf
  refine ⟨e, ?_, hcase⟩
  rcases hd : decryptInputs env myPubkey result.Msgs with ⟨t, o⟩
  rw [hd] at he
  simp only at he
  subst he
  rw [reconstruct_of_inputs_error env myPubkey result t e hd]

/-- Witness of C1 (amended): the caller `fill 7` sent the first message, the
second message was sent by `fill 9`. -/
theorem foreign_sender_aborts_witness :
    ∃ e, (reconstruct demoDeps (fill 7)
        { Msgs := [.MsgExecuteContract (some (demoBlob 1 7 (str "hi"))),
                   .MsgExecuteContract (some (demoBlob 2 9 (str "yo")))],
          Data := [], Events := [], Code := 0, RawLog := [] }).2 = .error e ∧
      (e = .NotOriginalSender ∨
        ∃ m ∈ [Msg.MsgExecuteContract (some (demoBlob 1 7 (str "hi"))),
               Msg.MsgExecuteContract (some (demoBlob 2 9 (str "yo")))].take 1,
          (decryptInput demoDeps (fill 7) m).2 = .error e ∧
          (e = .MalformedEnvelope ∨ e = .DecryptionFailed)) :=
  foreign_sender_aborts demoDeps (fill 7) _ 1
    (.MsgExecuteContract (some (demoBlob 2 9 (str "yo")))) (by decide) (by decide)

/-- C1 as stated fails: the first message carries a 3-byte field, the second
one a payload sent by `fill 9`; for the caller `fill 7` reconstruction stops
with `MalformedEnvelope`, not with `NotOriginalSender`. -/
theorem foreign_sender_not_always_notOriginalSender :
    ¬ ∀ (env : Deps) (myPubkey : Bytes) (result : TxResponse),
        (∃ tx ∈ result.Msgs, foreignSender myPubkey tx = true) →
        (reconstruct env myPubkey result).2 = .error .NotOriginalSender := by
  intro h
  have h1 := h demoDeps (fill 7)
    { Msgs := [.MsgExecuteContract (some [1, 2, 3]),
               .MsgExecuteContract (some (demoBlob 2 9 (str "yo")))],
      Data := [], Events := [], Code := 0, RawLog := [] }
    ⟨.MsgExecuteContract (some (demoBlob 2 9 (str "yo"))), by decide, by decide⟩
  revert h1
  decide

/-- C2. Fail-fast identity check: when every message before index `k` is
processed without error and message `k` carries another sender's public key,
reconstruction stops with `NotOriginalSender` and produces no answers; the
cipher calls made are exactly those of the messages before `k`, one `Decrypt`
per non-empty ciphertext, so none is made for message `k` or a later one. -/
theorem fail_fast_identity_check (env : Deps) (myPubkey : Bytes) (result : TxResponse)
    (k : Nat) (tx : Msg) (hk : result.Msgs[k]? = some tx)
    (hf : foreignSender myPubkey tx = true)
    (hpre : ∀ m ∈ result.Msgs.take k, inputOk env myPubkey m = true) :
    reconstruct env myPubkey result
        = (inputCalls (result.Msgs.take k), .error .NotOriginalSender) ∧
      (inputCalls (result.Msgs.take k)).length ≤ k := by
  constructor
  · apply reconstruct_of_inputs_error
    have hsplit := list_split_at result.Msgs k tx hk
    have hstop := decryptInputs_stops env myPubkey (result.Msgs.take k) tx
      (result.Msgs.drop (k + 1)) [] .NotOriginalSender hpre
      (decryptInput_of_foreignSender env myPubkey tx hf)
    rw [← hsplit] at hstop
    simpa using hstop
  · exact (inputCalls_length_le (result.Msgs.take k)).trans (List.length_take_le k result.Msgs)

/-- Witness of C2: two execute messages, the first sent by the caller `fill 7`
under nonce `fill 1`, the second sent by `fill 9` under nonce `fill 2`; the
only cipher call is the decryption of the first message. -/
theorem fail_fast_identity_check_witness :
    reconstruct demoDeps (fill 7)
        { Msgs := [.MsgExecuteContract (some (demoBlob 1 7 (str "hi"))),
                   .MsgExecuteContract (some (demoBlob 2 9 (str "yo")))],
          Data := [], Events := [], Code := 0, RawLog := [] }
      = ([.Decrypt (1 :: str "hi") (fill 1)], .error .NotOriginalSender) :=
  (fail_fast_identity_check demoDeps (fill 7)
    { Msgs := [.MsgExecuteContract (some (demoBlob 1 7 (str "hi"))),
               .MsgExecuteContract (some (demoBlob 2 9 (str "yo")))],
      Data := [], Events := [], Code := 0, RawLog := [] } 1
    (.MsgExecuteContract (some (demoBlob 2 9 (str "yo")))) (by decide) (by decide)
    (by decide)).1

/-- C3. For a message at index `k` with a present encrypted field `blob`, all
earlier messages being processed without error: the envelope decode fails
exactly when `blob` is shorter than 64 bytes, a blob of 64 bytes or more
decodes into its first 32 bytes, its next 32 bytes and the rest, and a decode
failure stops the whole reconstruction with `MalformedEnvelope` and no result. -/
theorem malformed_envelope_aborts (env : Deps) (myPubkey : Bytes) (result : TxResponse)
    (k : Nat) (tx : Msg) (blob : Bytes) (hk : result.Msgs[k]? = some tx)
    (hb : encryptedInput tx = some blob)
    (hpre : ∀ m ∈ result.Msgs.take k, inputOk env myPubkey m = true) :
    (parseEncryptedBlob blob = none ↔ blob.length < 64) ∧
      (64 ≤ blob.length →
        ∃ nonce sender ciphertext, parseEncryptedBlob blob = some (nonce, sender, ciphertext) ∧
          nonce.length = 32 ∧ sender.length = 32 ∧ blob = nonce ++ sender ++ ciphertext) ∧
      (blob.length < 64 →
        reconstruct env myPubkey result
          = (inputCalls (result.Msgs.take k), .error .MalformedEnvelope)) := by
  refine ⟨?_, ?_, ?_⟩
  · unfold parseEncryptedBlob
    by_cases h : blob.length < 64 <;> simp [h]
  · intro h
    refine ⟨blob.take 32, (blob.drop 32).take 32, blob.drop 64, ?_, ?_, ?_, ?_⟩
    · unfold parseEncryptedBlob
      simp [Nat.not_lt.mpr h]
    · simp
      omega
    · simp
      omega
    · have h1 : blob.drop 64 = (blob.drop 32).drop 32 := by simp
      rw [h1, List.append_assoc, List.take_append_drop, List.take_append_drop]
  · intro h
    apply reconstruct_of_inputs_error
    have hparse : parseEncryptedBlob blob = none := by
      unfold parseEncryptedBlob
      simp [h]
    have htx : decryptInput env myPubkey tx = ([], .error .MalformedEnvelope) := by
      unfold decryptInput
      simp [hb, hparse]
    have hsplit := list_split_at result.Msgs k tx hk
    have hstop := decryptInputs_stops env myPubkey (result.Msgs.take k) tx
      (result.Msgs.drop (k + 1)) [] .MalformedEnvelope hpre htx
    rw [← hsplit] at hstop
    simpa using hstop

/-- Witness of C3: the second message carries a 3-byte field; the first one is
decrypted, then reconstruction stops with `MalformedEnvelope`. -/
theorem malformed_envelope_aborts_witness :
    reconstruct demoDeps (fill 7)
        { Msgs := [.MsgExecuteContract (some (demoBlob 1 7 (str "hi"))),
                   .MsgInstantiateContract (some [1, 2, 3])],
          Data := [], Events := [], Code := 0, RawLog := [] }
      = ([.Decrypt (1 :: str "hi") (fill 1)], .error .MalformedEnvelope) :=
  (malformed_envelope_aborts demoDeps (fill 7)
    { Msgs := [.MsgExecuteContract (some (demoBlob 1 7 (str "hi"))),
               .MsgInstantiateContract (some [1, 2, 3])],
      Data := [], Events := [], Code := 0, RawLog := [] } 1
    (.MsgInstantiateContract (some [1, 2, 3])) [1, 2, 3] (by decide) (by decide)
    (by decide)).2.2 (by decide)

/-- C4, evaluated at a failing input. One execute message of the caller and an
output container with two execute responses whose data does not decrypt: the
first entry is skipped, the second one has no ledger slot at its index and
reconstruction ends in an index-out-of-range panic instead of a result. -/
theorem undecryptable_entry_beyond_ledger_panics :
    reconstruct demoDeps (fill 7)
        { Msgs := [.MsgExecuteContract (some (demoBlob 1 7 (str "hi")))],
          Data := str "02050205", Events := [], Code := 0, RawLog := [] }
      = ([.Decrypt (1 :: str "hi") (fill 1), .Decrypt [5] (fill 1)],
          .error .IndexOutOfRange) := by
  decide

/-- C5, evaluated at a failing input. Three execute messages of the caller give
the ledger `[fill 1, fill 2, fill 3]`; the log string `A29r` is base64 for a
ciphertext that decrypts only under `fill 3`, to `ok`. As the key of an
attribute whose value is not base64, `A29r` is searched in ledger order
(`fill 1`, `fill 2`, `fill 3`) and decrypted, but not replaced; as the value
of an attribute whose key is not base64 it is not searched at all. Both
strings are still `A29r` in the result. -/
theorem log_string_decryptable_but_not_replaced :
    reconstruct demoDeps (fill 7)
        { Msgs := [.MsgExecuteContract (some (demoBlob 1 7 (str "hi"))),
                   .MsgExecuteContract (some (demoBlob 2 7 (str "hi"))),
                   .MsgExecuteContract (some (demoBlob 3 7 (str "hi")))],
          Data := [],
          Events := [{ Typ := str "wasm",
                       Attributes := [{ Key := str "A29r", Value := str "not base64!" },
                                      { Key := str "plain key!", Value := str "A29r" }] }],
          Code := 0, RawLog := [] }
      = ([.Decrypt (1 :: str "hi") (fill 1), .Decrypt (2 :: str "hi") (fill 2),
          .Decrypt (3 :: str "hi") (fill 3),
          .Decrypt [3, 111, 107] (fill 1), .Decrypt [3, 111, 107] (fill 2),
          .Decrypt [3, 111, 107] (fill 3)],
          .ok { Answers := [{ Typ := str "execute", Input := str "hi", OutputData := [],
                              OutputDataAsString := [] },
                            { Typ := str "execute", Input := str "hi", OutputData := [],
                              OutputDataAsString := [] },
                            { Typ := str "execute", Input := str "hi", OutputData := [],
                              OutputDataAsString := [] }],
                OutputLogs := [{ Typ := str "wasm",
                                 Attributes := [{ Key := str "A29r",
                                                  Value := str "not base64!" },
                                                { Key := str "plain key!",
                                                  Value := str "A29r" }] }],
                OutputError := [], PlaintextError := [] }) ∧
      demoDeps.Base64Decode (str "A29r") = some [3, 111, 107] ∧
      demoDeps.Decrypt [3, 111, 107] (fill 1) = none ∧
      demoDeps.Decrypt [3, 111, 107] (fill 2) = none ∧
      demoDeps.Decrypt [3, 111, 107] (fill 3) = some (str "ok") := by
  decide

/-- C6, evaluated at a failing input. The caller's execute message has nonce
`fill 3`; the wasm event has a plaintext key with the encrypted value `A29r`
and the encrypted key `A29r` with a plaintext value. The encrypted value is
not decrypted, and the key, although `Decrypt` is called on it and succeeds,
is not replaced: the event comes out unchanged. -/
theorem key_and_value_not_independent :
    reconstruct demoDeps (fill 7)
        { Msgs := [.MsgExecuteContract (some (demoBlob 3 7 (str "hi")))],
          Data := [],
          Events := [{ Typ := str "wasm",
                       Attributes := [{ Key := str "plain key!", Value := str "A29r" },
                                      { Key := str "A29r", Value := str "not base64!" }] }],
          Code := 0, RawLog := [] }
      = ([.Decrypt (3 :: str "hi") (fill 3), .Decrypt [3, 111, 107] (fill 3)],
          .ok { Answers := [{ Typ := str "execute", Input := str "hi", OutputData := [],
                              OutputDataAsString := [] }],
                OutputLogs := [{ Typ := str "wasm",
                                 Attributes := [{ Key := str "plain key!", Value := str "A29r" },
                                                { Key := str "A29r",
                                                  Value := str "not base64!" }] }],
                OutputError := [], PlaintextError := [] }) ∧
      demoDeps.Base64Decode (str "plain key!") = none ∧
      demoDeps.Base64Decode (str "not base64!") = none ∧
      demoDeps.Base64Decode (str "A29r") = some [3, 111, 107] ∧
      demoDeps.Decrypt [3, 111, 107] (fill 3) = some (str "ok") := by
  decide

/-- C7 (amended). The decrypted log collection of a result holds one entry per
wasm event of the transaction, in event order, with that event's type and as
many attributes; every entry has the type `wasm`, so an event of another kind
is not in the collection. -/
theorem only_wasm_events_logged (env : Deps) (myPubkey : Bytes) (result : TxResponse)
    (res : DecryptedAnswers) (h : (reconstruct env myPubkey result).2 = .ok res) :
    List.Forall₂ (fun out e => out.Typ = e.Typ ∧ out.Attributes.length = e.Attributes.length)
        res.OutputLogs (result.Events.filter fun e => decide (e.Typ = str "wasm")) ∧
      ∀ out ∈ res.OutputLogs, out.Typ = str "wasm" := by
  obtain ⟨answers, nonces, -, -, hlogs, -, -⟩ := reconstruct_ok_parts env myPubkey result res h
  have hall := decryptLogs_wasm_only env nonces result.Events
  rw [← hlogs] at hall
  refine ⟨hall, ?_⟩
  generalize res.OutputLogs = outs at hall
  generalize hf : (result.Events.filter fun e => decide (e.Typ = str "wasm")) = ws at hall
  have hws : ∀ e ∈ ws, e.Typ = str "wasm" := by
    intro e he
    rw [← hf] at he
    simpa using (List.mem_filter.mp he).2
  clear hf
  induction hall with
  | nil => simp
  | cons hab _ ih =>
    intro out hout
    rcases List.mem_cons.mp hout with h1 | h2
    · subst h1
      rw [hab.1]
      exact hws _ (by simp)
    · exact ih (fun e he => hws e (by simp [he])) out h2

/-- Witness of C7 (amended): a `message` event followed by a wasm event; only
the wasm event is in the log collection. -/
theorem only_wasm_events_logged_witness :
    (reconstruct demoDeps (fill 7)
        { Msgs := [], Data := [],
          Events := [{ Typ := str "message",
                       Attributes := [{ Key := str "action", Value := str "execute" }] },
                     { Typ := str "wasm",
                       Attributes := [{ Key := str "k!", Value := str "v!" }] }],
          Code := 0, RawLog := [] }).2
      = .ok { Answers := [],
              OutputLogs := [{ Typ := str "wasm",
                               Attributes := [{ Key := str "k!", Value := str "v!" }] }],
              OutputError := [], PlaintextError := [] } ∧
      ∀ out ∈ [({ Typ := str "wasm",
                  Attributes := [{ Key := str "k!", Value := str "v!" }] } : Event)],
        out.Typ = str "wasm" :=
  ⟨by decide,
    (only_wasm_events_logged demoDeps (fill 7)
      { Msgs := [], Data := [],
        Events := [{ Typ := str "message",
                     Attributes := [{ Key := str "action", Value := str "execute" }] },
                   { Typ := str "wasm",
                     Attributes := [{ Key := str "k!", Value := str "v!" }] }],
        Code := 0, RawLog := [] }
      { Answers := [],
        OutputLogs := [{ Typ := str "wasm",
                         Attributes := [{ Key := str "k!", Value := str "v!" }] }],
        OutputError := [], PlaintextError := [] }
      (by decide)).2⟩

/-- C7 as stated fails: a transaction whose only event has the type `message`
gives a result with an empty log collection. -/
theorem non_wasm_event_not_logged :
    ¬ ∀ (env : Deps) (myPubkey : Bytes) (result : TxResponse) (res : DecryptedAnswers),
        (reconstruct env myPubkey result).2 = .ok res →
        ∀ e ∈ result.Events, e.Typ ≠ str "wasm" → e ∈ res.OutputLogs := by
  intro h
  have h1 := h demoDeps (fill 7)
    { Msgs := [], Data := [],
      Events := [{ Typ := str "message",
                   Attributes := [{ Key := str "action", Value := str "execute" }] }],
      Code := 0, RawLog := [] }
    { Answers := [], OutputLogs := [], OutputError := [], PlaintextError := [] }
    (by decide)
    { Typ := str "message", Attributes := [{ Key := str "action", Value := str "execute" }] }
    (by decide) (by decide)
  simp at h1

/-- C8. An attribute whose key and value are each empty or not valid base64 is
returned unchanged by the log decryptor, under every nonce ledger and without
any cipher call; applying the decryptor twice gives the same attribute as
applying it once. -/
theorem plaintext_attribute_unchanged (env : Deps) (nonces : List Bytes) (a : EventAttribute)
    (hkey : a.Key = [] ∨ env.Base64Decode a.Key = none)
    (hval : a.Value = [] ∨ env.Base64Decode a.Value = none) :
    decryptAttribute env nonces a = ([], a) ∧
      (decryptAttribute env nonces (decryptAttribute env nonces a).2).2
        = (decryptAttribute env nonces a).2 := by
  have h1 : decryptAttribute env nonces a = ([], a) := by
    unfold decryptAttribute
    by_cases hca : a.Key = str "contract_address"
    · simp [hca]
    · by_cases hk : a.Key = []
      · by_cases hv : a.Value = []
        · simp [hca, hk, hv]
          cases a
          simp_all
        · have hb : env.Base64Decode a.Value = none := hval.resolve_left hv
          simp [hk, hv, hb]
      · have hb : env.Base64Decode a.Key = none := hkey.resolve_left hk
        simp [hca, hk, hb]
  exact ⟨h1, by rw [h1]; simp only; rw [h1]⟩

/-- Witness of C8: a plaintext key and a plaintext value, ledger `[fill 1]`. -/
theorem plaintext_attribute_unchanged_witness :
    decryptAttribute demoDeps [fill 1] { Key := str "plain key!", Value := str "not base64!" }
        = ([], { Key := str "plain key!", Value := str "not base64!" }) ∧
      (decryptAttribute demoDeps [fill 1]
          (decryptAttribute demoDeps [fill 1]
            { Key := str "plain key!", Value := str "not base64!" }).2).2
        = (decryptAttribute demoDeps [fill 1]
            { Key := str "plain key!", Value := str "not base64!" }).2 :=
  plaintext_attribute_unchanged demoDeps [fill 1]
    { Key := str "plain key!", Value := str "not base64!" }
    (Or.inr (by decide)) (Or.inr (by decide))

/-- C9. Let the input and output phases succeed with the ledger `nonces`, the
status code be an encrypted-failure code and the raw log match the ciphertext
marker. If `DecryptError` succeeds on the raw log under the nonce at index `i`
and under no nonce before it, the result's `OutputError` is the text
`message index <i>: ` (with `i` in decimal) followed by that plaintext; if it
succeeds under no ledger nonce, `OutputError` is empty. In both cases
reconstruction returns a result. -/
theorem encrypted_error_first_match (env : Deps) (myPubkey : Bytes) (result : TxResponse)
    (answers answers' : List DecryptedAnswer) (nonces : List Bytes)
    (hin : (decryptInputs env myPubkey result.Msgs).2 = .ok (answers, nonces))
    (hout : (decryptData env nonces answers result.Data).2 = .ok answers')
    (hcode : env.IsEncryptedErrorCode result.Code = true)
    (hmark : env.ContainsEncryptedString result.RawLog = true) :
    (∀ (i : Nat) (nonce stdErr : Bytes), nonces[i]? = some nonce →
        env.DecryptError result.RawLog nonce = some stdErr →
        (∀ m ∈ nonces.take i, env.DecryptError result.RawLog m = none) →
        ∃ res, (reconstruct env myPubkey result).2 = .ok res ∧
          res.OutputError
            = str "message index " ++ str (toString i) ++ str ": " ++ stdErr) ∧
      ((∀ m ∈ nonces, env.DecryptError result.RawLog m = none) →
        ∃ res, (reconstruct env myPubkey result).2 = .ok res ∧ res.OutputError = []) := by
  have hrec := reconstruct_of_phases_ok env myPubkey result answers answers' nonces hin hout
  constructor
  · intro i nonce stdErr hi hd hfirst
    refine ⟨_, hrec, ?_⟩
    have hs := errorSearch_first_success env result.RawLog nonces 0 i nonce stdErr hi hd hfirst
    simp only [decryptError, hcode, hmark, Bool.and_self, if_true, hs, Option.getD_some,
      Nat.zero_add]
    rfl
  · intro hnone
    refine ⟨_, hrec, ?_⟩
    have hs := errorSearch_no_success env result.RawLog nonces 0 hnone
    simp [decryptError, hcode, hmark, hs]

/-- Witness of C9: the first message has no encrypted field, the second one has
nonce `fill 2`, and the raw log decrypts under `fill 2` only, so the index in
the error text is 1. -/
theorem encrypted_error_first_match_witness :
    ∃ res, (reconstruct demoDeps (fill 7)
        { Msgs := [.Other, .MsgExecuteContract (some (demoBlob 2 7 (str "hi")))],
          Data := [], Events := [], Code := 3,
          RawLog := 2 :: str "encrypted: oops" }).2 = .ok res ∧
      res.OutputError = str "message index 1: encrypted: oops" :=
  (encrypted_error_first_match demoDeps (fill 7)
    { Msgs := [.Other, .MsgExecuteContract (some (demoBlob 2 7 (str "hi")))],
      Data := [], Events := [], Code := 3, RawLog := 2 :: str "encrypted: oops" }
    [{ Typ := [], Input := [], OutputData := [], OutputDataAsString := [] },
     { Typ := str "execute", Input := str "hi", OutputData := [], OutputDataAsString := [] }]
    [{ Typ := [], Input := [], OutputData := [], OutputDataAsString := [] },
     { Typ := str "execute", Input := str "hi", OutputData := [], OutputDataAsString := [] }]
    [[], fill 2] (by decide) (by decide) (by decide) (by decide)).1 1 (fill 2)
    (str "encrypted: oops") (by decide) (by decide) (by decide)

/-- C10 (amended). In a result, when the raw log matches the internal-error
marker and the transaction is not classified as an encrypted error (status
code in the encrypted-failure set and raw log matching the ciphertext marker),
`PlaintextError` is the raw log verbatim and `OutputError` is empty; when it is
classified as an encrypted error, `PlaintextError` is empty; when neither
classification matches, both error fields are empty. -/
theorem plaintext_error_classification (env : Deps) (myPubkey : Bytes) (result : TxResponse)
    (res : DecryptedAnswers) (h : (reconstruct env myPubkey result).2 = .ok res) :
    ((env.IsEncryptedErrorCode result.Code && env.ContainsEncryptedString result.RawLog) = false →
        env.ContainsEnclaveError result.RawLog = true →
        res.PlaintextError = result.RawLog ∧ res.OutputError = []) ∧
      ((env.IsEncryptedErrorCode result.Code && env.ContainsEncryptedString result.RawLog) = true →
        res.PlaintextError = []) ∧
      ((env.IsEncryptedErrorCode result.Code && env.ContainsEncryptedString result.RawLog) = false →
        env.ContainsEnclaveError result.RawLog = false →
        res.OutputError = [] ∧ res.PlaintextError = []) := by
  obtain ⟨answers, nonces, -, -, -, herr, hplain⟩ := reconstruct_ok_parts env myPubkey result res h
  rw [herr, hplain]
  refine ⟨?_, ?_, ?_⟩
  · intro hc he
    simp [decryptError, hc, he]
  · intro hc
    simp [decryptError, hc]
  · intro hc he
    simp [decryptError, hc, he]

/-- Witness of C10 (amended): status code 5 is not an encrypted-failure code and
the raw log holds the internal-error marker. -/
theorem plaintext_error_classification_witness :
    (reconstruct demoDeps (fill 7)
        { Msgs := [], Data := [], Events := [], Code := 5,
          RawLog := str "EnclaveErr: out of memory" }).2
      = .ok { Answers := [], OutputLogs := [], OutputError := [],
              PlaintextError := str "EnclaveErr: out of memory" } ∧
      (str "EnclaveErr: out of memory" = str "EnclaveErr: out of memory" ∧ ([] : Bytes) = []) :=
  ⟨by decide,
    (plaintext_error_classification demoDeps (fill 7)
      { Msgs := [], Data := [], Events := [], Code := 5,
        RawLog := str "EnclaveErr: out of memory" }
      { Answers := [], OutputLogs := [], OutputError := [],
        PlaintextError := str "EnclaveErr: out of memory" }
      (by decide)).1 (by decide) (by decide)⟩

/-- C10 as stated fails: with status code 3 and a raw log that matches both the
ciphertext marker and the internal-error marker, the encrypted-error branch is
taken and `PlaintextError` stays empty. -/
theorem internal_error_marker_not_always_surfaced :
    ¬ ∀ (env : Deps) (myPubkey : Bytes) (result : TxResponse) (res : DecryptedAnswers),
        (reconstruct env myPubkey result).2 = .ok res →
        env.ContainsEnclaveError result.RawLog = true →
        res.PlaintextError = result.RawLog := by
  intro h
  have h1 := h demoDeps (fill 7)
    { Msgs := [], Data := [], Events := [], Code := 3,
      RawLog := str "encrypted: EnclaveErr" }
    { Answers := [], OutputLogs := [], OutputError := [], PlaintextError := [] }
    (by decide) (by decide)
  revert h1
  decide

/-- C11 (amended). In the direct query, when the query service returns an error
that is recognized as a query error and `DecryptError` fails on that error's
text under the nonce of the request's own encrypted blob, `QueryWithData`
returns the error of `DecryptError`. -/
theorem query_error_decrypt_failure_returned (env : QueryDeps)
    (contractAddress queryData codeHash encrypted : Bytes) (err decryptErr : GoError)
    (hhash : env.GetCodeHashByContractAddr contractAddress = .ok codeHash)
    (henc : env.Encrypt (env.Serialize codeHash queryData) = .ok encrypted)
    (hres : env.QuerySecretContract contractAddress encrypted = .error err)
    (hrec : env.ErrContainsQueryError err = true)
    (hdec : env.DecryptError err (requestNonce encrypted) = .error decryptErr) :
    QueryWithData env contractAddress queryData = .error (.Returned decryptErr) := by
  simp [QueryWithData, hhash, henc, hres, hrec, hdec]

/-- Witness of C11 (amended): the service error `encrypted: zzz` does not
decrypt under the request nonce `fill 1`. -/
theorem query_error_decrypt_failure_returned_witness :
    QueryWithData (demoQueryDeps (.error (str "encrypted: zzz"))) (str "secret1") (str "q")
      = .error (.Returned (str "got an error decrypting the error")) :=
  query_error_decrypt_failure_returned (demoQueryDeps (.error (str "encrypted: zzz")))
    (str "secret1") (str "q") (str "abcd") (demoBlob 1 7 (str "abcdq")) (str "encrypted: zzz")
    (str "got an error decrypting the error") (by decide) (by decide) (by decide) (by decide)
    (by decide)

/-- C11 as stated fails: for the service error `encrypted: zzz`, which does not
decrypt under the request nonce, `QueryWithData` does not return the service
error. -/
theorem query_error_original_not_returned :
    ¬ ∀ (env : QueryDeps) (contractAddress queryData codeHash encrypted : Bytes)
        (err decryptErr : GoError),
        env.GetCodeHashByContractAddr contractAddress = .ok codeHash →
        env.Encrypt (env.Serialize codeHash queryData) = .ok encrypted →
        env.QuerySecretContract contractAddress encrypted = .error err →
        env.ErrContainsQueryError err = true →
        env.DecryptError err (requestNonce encrypted) = .error decryptErr →
        QueryWithData env contractAddress queryData = .error (.Returned err) := by
  intro h
  have h1 := h (demoQueryDeps (.error (str "encrypted: zzz")))
    (str "secret1") (str "q") (str "abcd") (demoBlob 1 7 (str "abcdq")) (str "encrypted: zzz")
    (str "got an error decrypting the error") (by decide) (by decide) (by decide) (by decide)
    (by decide)
  revert h1
  decide

/-- C12. In the direct query, on a normal service response `data`,
`QueryWithData` returns `out` exactly when `Decrypt` succeeds on `data` under
the nonce of the request's own encrypted blob and the decrypted bytes are
base64 for `out`; a failure of `Decrypt` or of the base64 decoding is the
returned error, with no output. The nonce is the first 32 bytes of the
encrypted request when that has at least 64 bytes. -/
theorem query_response_decoded (env : QueryDeps)
    (contractAddress queryData codeHash encrypted data : Bytes)
    (hhash : env.GetCodeHashByContractAddr contractAddress = .ok codeHash)
    (henc : env.Encrypt (env.Serialize codeHash queryData) = .ok encrypted)
    (hres : env.QuerySecretContract contractAddress encrypted = .ok data) :
    (∀ out, QueryWithData env contractAddress queryData = .ok out ↔
        ∃ resDecrypted, env.Decrypt data (requestNonce encrypted) = .ok resDecrypted ∧
          env.Base64Decode resDecrypted = .ok out) ∧
      (∀ err, env.Decrypt data (requestNonce encrypted) = .error err →
        QueryWithData env contractAddress queryData = .error (.Returned err)) ∧
      (∀ resDecrypted err, env.Decrypt data (requestNonce encrypted) = .ok resDecrypted →
        env.Base64Decode resDecrypted = .error err →
        QueryWithData env contractAddress queryData = .error (.Returned err)) ∧
      (64 ≤ encrypted.length → requestNonce encrypted = encrypted.take 32) := by
  refine ⟨?_, ?_, ?_, ?_⟩
  · intro out
    cases hd : env.Decrypt data (requestNonce encrypted) with
    | error e => simp [QueryWithData, hhash, henc, hres, hd]
    | ok pt =>
      cases hb : env.Base64Decode pt with
      | error e => simp [QueryWithData, hhash, henc, hres, hd, hb]
      | ok o => simp [QueryWithData, hhash, henc, hres, hd, hb]
  · intro err hd
    simp [QueryWithData, hhash, henc, hres, hd]
  · intro pt err hd hb
    simp [QueryWithData, hhash, henc, hres, hd, hb]
  · intro hlen
    simp [requestNonce, parseEncryptedBlob, Nat.not_lt.mpr hlen]

/-- Witness of C12: the response decrypts under the request nonce `fill 1` to
`aGVsbG8=`, base64 for `hello`. -/
theorem query_response_decoded_witness :
    QueryWithData (demoQueryDeps (.ok (1 :: str "aGVsbG8="))) (str "secret1") (str "q")
      = .ok (str "hello") :=
  ((query_response_decoded (demoQueryDeps (.ok (1 :: str "aGVsbG8="))) (str "secret1")
    (str "q") (str "abcd") (demoBlob 1 7 (str "abcdq")) (1 :: str "aGVsbG8=") (by decide)
    (by decide) (by decide)).1 (str "hello")).mpr ⟨str "aGVsbG8=", by decide, by decide⟩

/-- C13. Let the input phase succeed with the ledger `nonces` and the output
container decode into `entries`. For a response entry at index `i` with a
non-empty payload of a recognized type that decodes to `dataField`, which
`Decrypt` turns into `plaintext` under the ledger nonce at index `i`: in every
result the answer at index `i` has `plaintext` as its output data, and its
output string is the base64 decoding of `plaintext` when that succeeds and
empty otherwise. Whether the base64 decoding succeeds does not matter for
getting a result: there is one whenever the container has no more entries than
the transaction has messages. -/
theorem output_data_stored (env : Deps) (myPubkey : Bytes) (result : TxResponse)
    (answers : List DecryptedAnswer) (nonces : List Bytes) (bz : Bytes) (entries : List Any)
    (i : Nat) (msgData : Any) (dataField nonce plaintext : Bytes)
    (hin : (decryptInputs env myPubkey result.Msgs).2 = .ok (answers, nonces))
    (hdata : result.Data ≠ [])
    (hhex : env.HexDecode result.Data = some bz)
    (hproto : env.UnmarshalTxMsgData bz = some entries)
    (hi : entries[i]? = some msgData) (hv : msgData.Value ≠ [])
    (htype : (msgData.TypeUrl = instantiateResponseUrl ∧
          env.UnmarshalInstantiateResponse msgData.Value = some dataField) ∨
        (msgData.TypeUrl = executeResponseUrl ∧
          env.UnmarshalExecuteResponse msgData.Value = some dataField))
    (hn : nonces[i]? = some nonce)
    (hd : env.Decrypt dataField nonce = some plaintext) :
    (∀ res, (reconstruct env myPubkey result).2 = .ok res →
        ∃ a, res.Answers[i]? = some a ∧ a.OutputData = plaintext ∧
          a.OutputDataAsString = (env.Base64Decode plaintext).getD []) ∧
      (entries.length ≤ result.Msgs.length →
        ∃ res, (reconstruct env myPubkey result).2 = .ok res) := by
  have hf : responseDataField env msgData = some dataField := by
    unfold responseDataField
    rcases htype with ⟨hu, hm⟩ | ⟨hu, hm⟩
    · simp [hu, hm]
    · have hne : executeResponseUrl ≠ instantiateResponseUrl := by decide
      simp [hu, hm, hne]
  constructor
  · intro res hres
    obtain ⟨answers0, nonces0, hin0, hout, -, -, -⟩ :=
      reconstruct_ok_parts env myPubkey result res hres
    rw [hin] at hin0
    simp only [Except.ok.injEq, Prod.mk.injEq] at hin0
    obtain ⟨h1, h2⟩ := hin0
    subst h1
    subst h2
    have hloop : (decryptOutputs env nonces 0 entries answers).2 = .ok res.Answers := by
      simpa [decryptData, hdata, hhex, hproto] using hout
    obtain ⟨-, hln⟩ := decryptInputs_lengths env myPubkey result.Msgs answers nonces hin
    have hlt : i < result.Msgs.length := by
      rcases Nat.lt_or_ge i nonces.length with hl | hl
      · omega
      · rw [List.getElem?_eq_none hl] at hn
        cases hn
    obtain ⟨t, a0, n0, hd0, ha0, -⟩ := decryptInputs_getElem env myPubkey result.Msgs answers
      nonces i result.Msgs[i] hin (List.getElem?_eq_getElem hlt)
    obtain ⟨-, -, hstr, -⟩ := decryptInput_answer env myPubkey result.Msgs[i] t a0 n0 hd0
    have hentry := decryptOutputs_entry env nonces 0 i entries answers res.Answers msgData
      dataField nonce plaintext a0 hloop hi hv hf (by simpa using hn) hd (by simpa using ha0)
    rw [Nat.zero_add] at hentry
    exact ⟨_, hentry, rfl, by rw [hstr]⟩
  · intro hcount
    obtain ⟨res, hres, -⟩ := reconstruct_ok_of_entries_in_range env myPubkey result answers
      nonces bz entries hin hhex hproto hcount
    exact ⟨res, hres⟩

/-- Witness of C13: the execute response of the caller's message decrypts under
the ledger nonce `fill 1` to `aGk=`, which is base64 for `hi`. -/
theorem output_data_stored_witness :
    ∃ a, ([({ Typ := str "execute", Input := str "hi", OutputData := str "aGk=",
              OutputDataAsString := str "hi" } : DecryptedAnswer)])[0]? = some a ∧
      a.OutputData = str "aGk=" ∧ a.OutputDataAsString = str "hi" :=
  (output_data_stored (demoDepsWithData (str "aGk=")) (fill 7)
    { Msgs := [.MsgExecuteContract (some (demoBlob 1 7 (str "hi")))],
      Data := str "0201", Events := [], Code := 0, RawLog := [] }
    [{ Typ := str "execute", Input := str "hi", OutputData := [], OutputDataAsString := [] }]
    [fill 1] [2, 1] [{ TypeUrl := executeResponseUrl, Value := [1] }] 0
    { TypeUrl := executeResponseUrl, Value := [1] } (1 :: str "aGk=") (fill 1) (str "aGk=")
    (by decide) (by decide) (by decide) (by decide) (by decide) (by decide)
    (Or.inr ⟨by decide, by decide⟩) (by decide) (by decide)).1
    { Answers := [{ Typ := str "execute", Input := str "hi", OutputData := str "aGk=",
                    OutputDataAsString := str "hi" }],
      OutputLogs := [], OutputError := [], PlaintextError := [] }
    (by decide)

/-- C14 (amended). For a message at index `k` whose encrypted field is absent,
the ledger slot at index `k` stays empty and, in every result, the answer at
index `k` has an empty decrypted input; its kind is the kind of the message:
`execute` for an execute message, `instantiate` for an instantiate message,
and empty (unrecognized) only for a message of another kind. -/
theorem absent_field_keeps_kind (env : Deps) (myPubkey : Bytes) (result : TxResponse)
    (k : Nat) (tx : Msg) (hk : result.Msgs[k]? = some tx) (hnil : encryptedInput tx = none) :
    (∀ answers nonces, (decryptInputs env myPubkey result.Msgs).2 = .ok (answers, nonces) →
        nonces[k]? = some []) ∧
      (∀ res, (reconstruct env myPubkey result).2 = .ok res →
        ∃ a, res.Answers[k]? = some a ∧ a.Input = [] ∧
          (tx = .MsgExecuteContract none → a.Typ = str "execute") ∧
          (tx = .MsgInstantiateContract none → a.Typ = str "instantiate") ∧
          (tx = .Other → a.Typ = [])) := by
  constructor
  · intro answers nonces hin
    obtain ⟨t, a, n, hd, -, hn⟩ :=
      decryptInputs_getElem env myPubkey result.Msgs answers nonces k tx hin hk
    obtain ⟨-, -, -, hfield⟩ := decryptInput_answer env myPubkey tx t a n hd
    rw [hn, (hfield hnil).2]
  · intro res hres
    obtain ⟨answers, nonces, hin, hout, -, -, -⟩ :=
      reconstruct_ok_parts env myPubkey result res hres
    obtain ⟨t, a, n, hd, ha, -⟩ :=
      decryptInputs_getElem env myPubkey result.Msgs answers nonces k tx hin hk
    obtain ⟨htyp, -, -, hfield⟩ := decryptInput_answer env myPubkey tx t a n hd
    have hkeep : ∃ a', res.Answers[k]? = some a' ∧ a'.Typ = a.Typ ∧ a'.Input = a.Input := by
      unfold decryptData at hout
      by_cases hdata : result.Data = []
      · simp only [hdata, ne_eq, not_true_eq_false, if_false, Except.ok.injEq] at hout
        rw [← hout]
        exact ⟨a, ha, rfl, rfl⟩
      · simp only [ne_eq, hdata, not_false_eq_true, if_true] at hout
        cases hhex : env.HexDecode result.Data with
        | none => simp [hhex] at hout
        | some bz =>
          cases hproto : env.UnmarshalTxMsgData bz with
          | none => simp [hhex, hproto] at hout
          | some entries =>
            simp only [hhex, hproto] at hout
            exact decryptOutputs_keeps_input env nonces 0 k entries answers res.Answers a hout ha
    obtain ⟨a', ha', hty', hin'⟩ := hkeep
    refine ⟨a', ha', by rw [hin', (hfield hnil).1], ?_, ?_, ?_⟩
    · intro htx
      rw [hty', htyp, htx]
      rfl
    · intro htx
      rw [hty', htyp, htx]
      rfl
    · intro htx
      rw [hty', htyp, htx]
      rfl

/-- Witness of C14 (amended): an execute message without an encrypted field. -/
theorem absent_field_keeps_kind_witness :
    ∃ a, ([({ Typ := str "execute", Input := [], OutputData := [],
              OutputDataAsString := [] } : DecryptedAnswer)])[0]? = some a ∧ a.Input = [] ∧
      (Msg.MsgExecuteContract none = .MsgExecuteContract none → a.Typ = str "execute") ∧
      (Msg.MsgExecuteContract none = .MsgInstantiateContract none →
        a.Typ = str "instantiate") ∧
      (Msg.MsgExecuteContract none = .Other → a.Typ = []) :=
  (absent_field_keeps_kind demoDeps (fill 7)
    { Msgs := [.MsgExecuteContract none], Data := [], Events := [], Code := 0, RawLog := [] }
    0 (.MsgExecuteContract none) (by decide) (by decide)).2
    { Answers := [{ Typ := str "execute", Input := [], OutputData := [],
                    OutputDataAsString := [] }],
      OutputLogs := [], OutputError := [], PlaintextError := [] }
    (by decide)

/-- C14 as stated fails: for a transaction whose only message is an execute
message without an encrypted field, the answer has the kind `execute`. -/
theorem absent_field_kind_not_unrecognized :
    ¬ ∀ (env : Deps) (myPubkey : Bytes) (result : TxResponse) (res : DecryptedAnswers)
        (k : Nat) (tx : Msg),
        (reconstruct env myPubkey result).2 = .ok res →
        result.Msgs[k]? = some tx → encryptedInput tx = none →
        ∃ a, res.Answers[k]? = some a ∧ a.Typ ≠ str "execute" ∧ a.Typ ≠ str "instantiate" := by
  intro h
  obtain ⟨a, ha, hne, -⟩ := h demoDeps (fill 7)
    { Msgs := [.MsgExecuteContract none], Data := [], Events := [], Code := 0, RawLog := [] }
    { Answers := [{ Typ := str "execute", Input := [], OutputData := [],
                    OutputDataAsString := [] }],
      OutputLogs := [], OutputError := [], PlaintextError := [] }
    0 (.MsgExecuteContract none) (by decide) (by decide) (by decide)
  simp at ha
  subst ha
  exact hne rfl

/-- C15, evaluated at a failing input. One execute message of the caller, so a
ledger and an answers array of one slot, and an output container with two
execute responses: the first one is decrypted under the nonce at index 0, the
second one is looked up at index 1 and the command ends in an
index-out-of-range panic. -/
theorem response_index_beyond_messages_panics :
    reconstruct demoDeps (fill 7)
        { Msgs := [.MsgExecuteContract (some (demoBlob 1 7 (str "hi")))],
          Data := str "02010201", Events := [], Code := 0, RawLog := [] }
      = ([.Decrypt (1 :: str "hi") (fill 1), .Decrypt [1] (fill 1)],
          .error .IndexOutOfRange) ∧
      demoDeps.UnmarshalTxMsgData [2, 1, 2, 1]
        = some [{ TypeUrl := executeResponseUrl, Value := [1] },
                { TypeUrl := executeResponseUrl, Value := [1] }] := by
  decide

end SecretNetwork
